import Mathlib

/-!
RadiationWatch: pulse accounting and windowed rate estimation.

A shallow embedding of `src/RadiationWatch.cpp`.

* C++ `int` variables are mathematical integers (`Int`); the embedding describes
  the executions in which no signed overflow occurs.
* `_cpm` and the entries of `_cpmHistory` only ever hold sums of pulse counts and
  are integers here as well.
* `double` values are rational numbers.  `cpm` and `uSvh` are computed in floating
  point: every conversion and division is rounded by `fl p` to the nearest number
  with `p` significant bits (53 for binary64, 24 for binary32 on the ATmega328).
  `cpmTime` and `uSvhError` are the quotients before rounding; the library function
  `sqrt` is a parameter.
* Pin reads and the clock are inputs of `loop`: `noise` is the value returned by
  `noisePin()`, `millis` the value `millis()` would return (as stored in an `int`).
* Where overflow decides a property (the batch clock), `wrapInt`, `elapsedInt` and
  `addTimeW` evaluate lines 121-143 in `w`-bit two's-complement arithmetic.
* `loop` runs without interruption; `loopI` adds pulse interrupts at the places
  inside an evaluation where `signCount` is read and reset, and `evaluationsI`
  runs batch evaluations with such interrupts.
-/

namespace RadiationWatch

/-- Modelled from the spec: the constant `kHistoryCount` is declared in
`RadiationWatch.h`, which is not among the sources; the spec fixes `N = 200`
bins of 6 seconds (20 minutes). -/
def kHistoryCount : Nat := 200

/-- Modelled from the spec: the member declarations of class `RadiationWatch` are in
`RadiationWatch.h`, which is not among the sources.  The state is the global
`signCount` (line 9) together with the members the constructor initialises
(lines 17-37) and the array `_cpmHistory`, all of them integer counters as in the
spec's data model.  `printed` counts the calls of `printStatus()` made so far
(its only observable effect here). -/
structure State where
  signCount : Int
  _prevTime : Int
  index : Int
  noiseCount : Int
  sON : Int
  nON : Int
  _cpm : Int
  cpmIndex : Int
  cpmIndexPrev : Int
  totalSec : Int
  totalHour : Int
  cpmTimeMSec : Int
  cpmTimeSec : Int
  _cpmHistory : List Int
  printed : Nat
deriving DecidableEq, Repr

/-- Arduino `abs(x)`, the macro `((x)>0?(x):-(x))`. -/
def abs (x : Int) : Int := if x > 0 then x else -x

/-- The interrupt handler `triggerRadiationPulse()` (lines 12-15): `signCount++`. -/
def triggerRadiationPulse (s : State) : State :=
  { s with signCount := s.signCount + 1 }

/-- The constructor (lines 17-37).  The array `_cpmHistory` is allocated with
`kHistoryCount` entries; its contents are `garbage` until `setup()` runs. -/
def constructor (garbage : List Int) : State :=
  { signCount := 0, _prevTime := 0, index := 0, noiseCount := 0, sON := 0, nON := 0,
    _cpm := 0, cpmIndex := 0, cpmIndexPrev := 0, totalSec := 0, totalHour := 0,
    cpmTimeMSec := 0, cpmTimeSec := 0, _cpmHistory := garbage, printed := 0 }

/-- The method `setup()` (lines 39-60): every bin is zeroed and `_prevTime = millis()`. -/
def setup (millis : Int) (s : State) : State :=
  { s with _cpmHistory := List.replicate kHistoryCount 0, _prevTime := millis }

/-- The initial state: constructor followed by `setup()` at clock reading `millis`. -/
def initial (millis : Int) : State :=
  setup millis (constructor (List.replicate kHistoryCount 0))

/-- Read `_cpmHistory[cpmIndex]`.  A read outside the array, undefined in C++, gives 0
here; `SumInv` shows that reachable states keep `cpmIndex` inside the array. -/
def bin (s : State) : Int := s._cpmHistory.getD s.cpmIndex.toNat 0

/-- Lines 80-86: edge detection on the polled noise line. -/
def pollNoise (noise : Int) (s : State) : State :=
  if noise = 1 ∧ s.nON = 0 then
    { s with nON := 1, noiseCount := s.noiseCount + 1 }
  else if noise = 0 ∧ s.nON = 1 then
    { s with nON := 0 }
  else s

/-- Lines 100-112: the body of the bin shift. -/
def shiftBody (s : State) : State :=
  let s := { s with cpmIndexPrev := s.totalSec }
  let s := { s with cpmIndex := s.cpmIndex + 1 }
  let s := if s.cpmIndex ≥ (kHistoryCount : Int) then { s with cpmIndex := 0 } else s
  let s := if bin s > 0 then { s with _cpm := s._cpm - bin s } else s
  { s with _cpmHistory := s._cpmHistory.set s.cpmIndex.toNat 0 }

/-- Lines 98-113: shift the history every 6 seconds. -/
def shiftHistory (s : State) : State :=
  if s.totalSec.tmod 6 = 0 ∧ s.cpmIndexPrev ≠ s.totalSec then shiftBody s else s

/-- Lines 116-118: fold the batch's pulse count in, no pulse interrupt firing
between the two reads of `signCount` (`storeCountI` has the general case). -/
def storeCount (s : State) : State :=
  let s := { s with _cpmHistory := s._cpmHistory.set s.cpmIndex.toNat (bin s + s.signCount) }
  { s with _cpm := s._cpm + s.signCount }

/-- Lines 125-142: the body of `if(cpmTimeMSec >= 1000)`, one second-tick. -/
def secondTick (s : State) : State :=
  let s := { s with cpmTimeMSec := s.cpmTimeMSec - 1000 }
  let s := if s.cpmTimeSec ≥ 20 * 60 then { s with cpmTimeSec := 20 * 60 }
           else { s with cpmTimeSec := s.cpmTimeSec + 1 }
  let s := { s with totalSec := s.totalSec + 1 }
  let kSecondsInHour : Int := 60 * 60
  if s.totalSec ≥ kSecondsInHour then
    { s with totalSec := s.totalSec - kSecondsInHour, totalHour := s.totalHour + 1 }
  else s

/-- Lines 121-143: add the batch's duration, then at most one second-tick.  The
difference `currTime - _prevTime` is the exact one (`addTimeW` has the subtraction
of a `w`-bit `int`). -/
def addTime (currTime : Int) (s : State) : State :=
  let s := { s with cpmTimeMSec := s.cpmTimeMSec + abs (currTime - s._prevTime) }
  if s.cpmTimeMSec ≥ 1000 then secondTick s else s

/-- The call of `printStatus()` (line 145): one status event. -/
def printStatus (s : State) : State := { s with printed := s.printed + 1 }

/-- Lines 97-147: the body of `if(noiseCount == 0)`. -/
def cleanBatch (currTime : Int) (s : State) : State :=
  let s := shiftHistory s
  let s := storeCount s
  let s := addTime currTime s
  let s := printStatus s
  { s with index := 0 }

/-- Lines 91-153: the body of `if(index==10000)`, one batch evaluation. -/
def evaluate (millis : Int) (s : State) : State :=
  let currTime := millis
  let s := if s.noiseCount = 0 then cleanBatch currTime s else s
  { s with _prevTime := currTime, signCount := 0, noiseCount := 0 }

/-- The method `loop()` (lines 72-157).  `noise` is the level read from the noise pin and
`millis` the clock reading (used only by an evaluating call). -/
def loop (noise millis : Int) (s : State) : State :=
  let s := pollNoise noise s
  let s := if s.index = 10000 then evaluate millis s else s
  { s with index := s.index + 1 }

/-- The method `cpmTime()` (lines 172-175): `cpmTimeSec / 60.0`. -/
def cpmTime (s : State) : ℚ := (s.cpmTimeSec : ℚ) / 60.0

/-- The method `isAvailable()` (lines 167-170): `cpmTime() != 0`. -/
def isAvailable (s : State) : Bool := cpmTime s != 0

/-- Rounding of a rational number to the nearest integer, ties to the even one. -/
def rne (y : ℚ) : ℤ :=
  if y - ⌊y⌋ < 1 / 2 then ⌊y⌋
  else if 1 / 2 < y - ⌊y⌋ then ⌊y⌋ + 1
  else if ⌊y⌋ % 2 = 0 then ⌊y⌋ else ⌊y⌋ + 1

/-- The floating-point number with `p` significant bits nearest to `x`, ties to even
(the default rounding of IEEE 754 arithmetic): `p = 53` is binary64, `p = 24` is
binary32, which is what `double` is on the ATmega328 named at line 89.  The exponent
is not bounded: overflow and underflow, out of reach for quotients of 32-bit `int`
values (`dose_in_range`), are left out. -/
def fl (p : ℕ) (x : ℚ) : ℚ :=
  if x = 0 then 0
  else (rne (x / 2 ^ (Int.log 2 |x| - ((p : ℤ) - 1))) : ℚ) *
    2 ^ (Int.log 2 |x| - ((p : ℤ) - 1))

/-- The method `cpmTime()` (lines 172-175) as the machine computes it with a `double`
of `p` significant bits: `cpmTimeSec` is converted to `double` and divided by the
literal `60.0`. -/
def cpmTimeFl (p : ℕ) (s : State) : ℚ := fl p (fl p (s.cpmTimeSec : ℚ) / fl p 60.0)

/-- The method `cpm()` (lines 177-187) with a `double` of `p` significant bits:
`_cpm / min` when `min = cpmTime()` is not zero, else 0; `_cpm` is converted to
`double` and the quotient is rounded. -/
def cpm (p : ℕ) (s : State) : ℚ :=
  let min := cpmTimeFl p s
  if min ≠ 0 then fl p (fl p (s._cpm : ℚ) / min) else 0

/-- The calibration constant `kAlpha = 53.032` (line 189). -/
def kAlpha : ℚ := 53.032

/-- The method `uSvh()` (lines 191-194) with a `double` of `p` significant bits:
`cpm() / kAlpha`, where the constant is the `double` nearest to 53.032 and the
quotient is rounded. -/
def uSvh (p : ℕ) (s : State) : ℚ := fl p (cpm p s / fl p kAlpha)

/-- What can happen to the state: a pulse interrupt or one `loop()` call. -/
inductive Event where
  | pulse : Event
  | loop (noise millis : Int) : Event
deriving DecidableEq, Repr

/-- The effect of one event; a pulse interrupt here falls between two `loop()` calls
(`loopI` has the interrupts that fall inside a call). -/
def step (s : State) : Event → State
  | Event.pulse => triggerRadiationPulse s
  | Event.loop noise millis => loop noise millis s

/-- Run a sequence of events. -/
def run (s : State) (evs : List Event) : State := evs.foldl step s

/-- What a batch has left in the driver's variables when its evaluation starts, and
the inputs of the evaluating `loop()` call.  Between two evaluations only
`signCount` (interrupts), `index`, `nON` and `noiseCount` (noise polls) are
written. -/
structure Batch where
  signCount : Int
  nON : Int
  noiseCount : Int
  noise : Int
  millis : Int
deriving DecidableEq, Repr

/-- The evaluating `loop()` call of a batch: the call made with `index == 10000`,
the other driver variables being as the batch has left them. -/
def evaluation (b : Batch) (s : State) : State :=
  loop b.noise b.millis
    { s with index := 10000, signCount := b.signCount, nON := b.nON, noiseCount := b.noiseCount }

/-- A sequence of batch evaluations. -/
def evaluations (s : State) (bs : List Batch) : State :=
  bs.foldl (fun s b => evaluation b s) s

/-- One clean batch as the firmware sees it: `pulses` interrupts, then `loop()`
calls with the noise line low until `index` has reached 10000, then the
evaluating `loop()` call, which reads the clock as `millis`. -/
def batch (pulses : Nat) (millis : Int) (s : State) : State :=
  loop 0 millis ((loop 0 millis)^[(10000 - s.index).toNat] (triggerRadiationPulse^[pulses] s))

/-- Run clean batches, each given by its pulse count and the clock reading of its
evaluation. -/
def runBatches (s : State) (bs : List (Nat × Int)) : State :=
  bs.foldl (fun s b => batch b.1 b.2 s) s

/-- Every batch of `bs` spans exactly `e` ms on the clock, `t` being the reading
stored by the previous evaluation (or by `setup()`). -/
def spans (e : Int) : Int → List (Nat × Int) → Prop
  | _, [] => True
  | t, b :: bs => abs (b.2 - t) = e ∧ spans e b.2 bs

/-- Sum of all bins. -/
def histSum (s : State) : Int := s._cpmHistory.sum

/-- The bookkeeping invariant of the history buffer: the array has `kHistoryCount`
entries, `cpmIndex` is a valid position, no bin is negative, `_cpm` is the sum of
the bins and the pending pulse count is not negative. -/
def SumInv (s : State) : Prop :=
  s._cpmHistory.length = kHistoryCount ∧ 0 ≤ s.cpmIndex ∧ s.cpmIndex < kHistoryCount ∧
  (∀ x ∈ s._cpmHistory, 0 ≤ x) ∧ s._cpm = histSum s ∧ 0 ≤ s.signCount

/-- Total elapsed whole seconds, `3600 * totalHour + totalSec`. -/
def elapsedSec (s : State) : Int := 3600 * s.totalHour + s.totalSec

/-- The invariant of the time accumulators: `totalSec` is a second of the hour,
`cpmTimeSec` is the elapsed time capped at 20 minutes, the carry is not negative. -/
def TimeInv (s : State) : Prop :=
  0 ≤ s.totalSec ∧ s.totalSec ≤ 3599 ∧ 0 ≤ s.totalHour ∧
  s.cpmTimeSec = min (elapsedSec s) 1200 ∧ 0 ≤ s.cpmTimeMSec

/-- The initial state after 10000 `loop()` calls and 7 pulses: an evaluation is due
and 7 pulses are pending. -/
def sevenPending : State := { initial 0 with index := 10000, signCount := 7 }

/-- A state with `_cpm = 53032` after exactly one minute of measurement. -/
def oneMinute : State := { initial 0 with _cpm := 53032, cpmTimeSec := 60 }

/-- The driver is at rest between batches: the noise line is low, nothing has been
counted since the last reset and the evaluation is still ahead. -/
def Ready (s : State) : Prop :=
  s.nON = 0 ∧ s.noiseCount = 0 ∧ s.signCount = 0 ∧ 0 ≤ s.index ∧ s.index ≤ 10000

/-- The batches of a steady run: `n` batches of `pulses` pulses each, evaluated
every `e` ms after the reading `t`. -/
def ramp (e : Int) (pulses : Nat) : Int → Nat → List (Nat × Int)
  | _, 0 => []
  | t, n + 1 => (pulses, t + e) :: ramp e pulses (t + e) n

/-- Bookkeeping of the scenario "batches of 5 pulses spanning 150 ms each":
the state after `k` such batches. -/
def Scenario (k : Nat) (s : State) : Prop :=
  Ready s ∧ s._cpm = 5 * k ∧ 1000 * s.totalSec + s.cpmTimeMSec = 150 * k ∧
  0 ≤ s.cpmTimeMSec ∧ s.cpmTimeMSec < 1000 ∧ 0 ≤ s.totalSec ∧
  s.cpmTimeSec = s.totalSec ∧ s.cpmIndexPrev = 0

/-- Bookkeeping of the scenario "batches spanning 1000 ms each": the state after
`k` such batches. -/
def Seconds (k : Nat) (s : State) : Prop :=
  Ready s ∧ s.cpmTimeMSec = 0 ∧ 3600 * s.totalHour + s.totalSec = k ∧
  0 ≤ s.totalSec ∧ s.totalSec ≤ 3599

/-- A state is reachable when some sequence of pulse interrupts and `loop()` calls
leads to it from the initial state. -/
def Reachable (s : State) : Prop := ∃ millis evs, s = run (initial millis) evs

/-- The state after `n` clean batches of one pulse each, evaluated every 1000 ms
after `setup()` at reading 0. -/
def afterSeconds (n : Nat) : State := runBatches (initial 0) (ramp 1000 1 0 n)

/-- The state in which the evaluation that follows `afterSeconds 6` takes place:
3 more pulses and 9999 more `loop()` calls. -/
def atBoundary : State := (loop 0 7000)^[9999] (triggerRadiationPulse^[3] (afterSeconds 6))

/-- A sequence of `loop()` calls, each with the level read from the noise pin and the
clock reading. -/
def loops (s : State) (ins : List (Int × Int)) : State :=
  ins.foldl (fun s i => loop i.1 i.2 s) s

/-- The noise gate alone: a sequence of polls of the noise line (lines 80-86). -/
def polls (s : State) (levels : List Int) : State :=
  levels.foldl (fun s l => pollNoise l s) s

/-- Number of low-to-high transitions in a sequence of levels, `prev` being the level
before the first one. -/
def rises : Int → List Int → Nat
  | _, [] => 0
  | prev, l :: ls => (if prev = 0 ∧ l = 1 then 1 else 0) + rises l ls

/-- The last level of a sequence, `prev` when the sequence is empty. -/
def lastLevel : Int → List Int → Int
  | prev, [] => prev
  | _, l :: ls => lastLevel l ls

/-- A burst that spans a batch edge: the line rises in the middle of the batch and is
still high at the evaluating call. -/
def burstInputs : List (Int × Int) := [(0, 0), (1, 0), (1, 0)]

/-- The state three `loop()` calls before an evaluation, nothing counted so far. -/
def nearEvaluation : State := { initial 0 with index := 9997 }

/-- Total elapsed time in ms as the accumulators hold it:
`3600000 * totalHour + 1000 * totalSec + cpmTimeMSec`. -/
def totalMillis (s : State) : Int :=
  3600000 * s.totalHour + 1000 * s.totalSec + s.cpmTimeMSec

/-- The array has `kHistoryCount` entries and `cpmIndex` is a position in it. -/
def IdxInv (s : State) : Prop :=
  s._cpmHistory.length = kHistoryCount ∧ 0 ≤ s.cpmIndex ∧ s.cpmIndex < kHistoryCount

/-- The state in which the evaluating call of batch `b` tests `noiseCount` (line 95):
the driver variables as the batch has left them, after the noise poll of the call. -/
def polled (b : Batch) (s : State) : State :=
  pollNoise b.noise
    { s with index := 10000, signCount := b.signCount, nON := b.nON, noiseCount := b.noiseCount }

/-- Number of bin advances performed by a sequence of batch evaluations: the
evaluations in which `cpmIndex` has moved. -/
def advances : State → List Batch → Nat
  | _, [] => 0
  | s, b :: bs =>
    (if (evaluation b s).cpmIndex ≠ s.cpmIndex then 1 else 0) + advances (evaluation b s) bs

/-- The state of the six-second bookkeeping after `a` bin advances: between 6a and
6a + 6 seconds have been counted and `cpmIndexPrev` is the second of the hour of
the last boundary used. -/
def AdvInv (a : Nat) (s : State) : Prop :=
  IdxInv s ∧ 0 ≤ s.totalSec ∧ s.totalSec ≤ 3599 ∧ 0 ≤ s.totalHour ∧
  6 * (a : Int) ≤ elapsedSec s ∧ elapsedSec s ≤ 6 * (a : Int) + 6 ∧
  s.cpmIndexPrev = (6 * (a : Int)) % 3600

/-- Six clean batches of one pulse each, evaluated at the readings 1000, ..., 6000. -/
def sixSeconds : List Batch :=
  [⟨1, 0, 0, 0, 1000⟩, ⟨1, 0, 0, 0, 2000⟩, ⟨1, 0, 0, 0, 3000⟩, ⟨1, 0, 0, 0, 4000⟩,
   ⟨1, 0, 0, 0, 5000⟩, ⟨1, 0, 0, 0, 6000⟩]

/-- A clean batch of 3 pulses evaluated at reading 7000. -/
def seventhBatch : Batch := ⟨3, 0, 0, 0, 7000⟩

/-- The value a two's-complement `int` of `w` bits holds after an operation whose
exact result is `x` (wrap-around; the C++ standard leaves signed overflow
undefined). -/
def wrapInt (w : Nat) (x : Int) : Int := (x + 2 ^ (w - 1)) % 2 ^ w - 2 ^ (w - 1)

/-- The term `abs(currTime - _prevTime)` of line 121 evaluated in `w`-bit `int`
arithmetic with wrap-around. -/
def elapsedInt (w : Nat) (currTime prevTime : Int) : Int :=
  if wrapInt w (currTime - prevTime) > 0 then wrapInt w (currTime - prevTime)
  else wrapInt w (-(wrapInt w (currTime - prevTime)))

/-- A clean batch without pulses evaluated at the reading 4464: 40000 ms after the
reading 30000 on a clock that wraps at 65536. -/
def wrappedBatch : Batch := ⟨0, 0, 0, 0, 4464⟩

/-- Lines 116-118 with `k` pulse interrupts firing between the read of `signCount` at
line 116 and the read at line 118. -/
def storeCountI (k : Nat) (s : State) : State :=
  let s := { s with _cpmHistory := s._cpmHistory.set s.cpmIndex.toNat (bin s + s.signCount) }
  let s := triggerRadiationPulse^[k] s
  { s with _cpm := s._cpm + s.signCount }

/-- Lines 97-147 with `k` pulse interrupts between the reads of lines 116 and 118. -/
def cleanBatchI (k : Nat) (currTime : Int) (s : State) : State :=
  let s := shiftHistory s
  let s := storeCountI k s
  let s := addTime currTime s
  let s := printStatus s
  { s with index := 0 }

/-- Lines 91-153 with `k` pulse interrupts between the reads of lines 116 and 118 and
`m` pulse interrupts after the read of line 118 and before the reset of line 152. -/
def evaluateI (k m : Nat) (millis : Int) (s : State) : State :=
  let currTime := millis
  let s := if s.noiseCount = 0 then cleanBatchI k currTime s else s
  let s := triggerRadiationPulse^[m] s
  { s with _prevTime := currTime, signCount := 0, noiseCount := 0 }

/-- The method `loop()` with pulse interrupts firing during the evaluation: `k` of
them between lines 116 and 118, `m` of them between lines 118 and 152.  Every
read and write of `signCount` is taken as atomic. -/
def loopI (k m : Nat) (noise millis : Int) (s : State) : State :=
  let s := pollNoise noise s
  let s := if s.index = 10000 then evaluateI k m millis s else s
  { s with index := s.index + 1 }

/-- A batch together with the pulse interrupts that fire during its evaluation:
`between` of them between the reads of `signCount` at lines 116 and 118, `after`
of them after the read of line 118 and before the reset of line 152. -/
structure BatchI where
  batch : Batch
  between : Nat
  after : Nat
deriving DecidableEq, Repr

/-- The evaluating `loop()` call of a batch, with pulse interrupts firing inside it. -/
def evaluationI (x : BatchI) (s : State) : State :=
  loopI x.between x.after x.batch.noise x.batch.millis
    { s with index := 10000, signCount := x.batch.signCount, nON := x.batch.nON,
             noiseCount := x.batch.noiseCount }

/-- A sequence of batch evaluations with pulse interrupts firing inside them. -/
def evaluationsI (s : State) (xs : List BatchI) : State :=
  xs.foldl (fun s x => evaluationI x s) s

/-- Number of pulse interrupts that fired between the reads of lines 116 and 118 in
the clean evaluations of a sequence. -/
def skew : State → List BatchI → Nat
  | _, [] => 0
  | s, x :: xs =>
    (if (polled x.batch s).noiseCount = 0 then x.between else 0) + skew (evaluationI x s) xs

/-- The array is well formed, no bin is negative and `_cpm` exceeds the sum of the
bins by `k`. -/
def SkewInv (k : Nat) (s : State) : Prop :=
  IdxInv s ∧ (∀ x ∈ s._cpmHistory, 0 ≤ x) ∧ s._cpm = s._cpmHistory.sum + k

/-- Three batches with 3, 2 and 4 pulses pending; the second one is noisy, and in the
third one 2 interrupts fire between lines 116 and 118 and 1 after line 118. -/
def threeBatchesI : List BatchI :=
  [⟨⟨3, 0, 0, 0, 150⟩, 0, 0⟩, ⟨⟨2, 0, 0, 1, 300⟩, 5, 0⟩, ⟨⟨4, 1, 0, 0, 450⟩, 2, 1⟩]

/-- One clean batch with 7 pulses pending, in whose evaluation one more interrupt
fires between the reads of lines 116 and 118. -/
def oneInterleaved : List BatchI :=
  [⟨⟨7, 0, 0, 0, 123⟩, 1, 0⟩]

/-- Lines 121-143 on a `w`-bit two's-complement `int`: the duration of line 121 is
`elapsedInt`, the sum `cpmTimeMSec + ...` wraps around as well, then at most one
second-tick. -/
def addTimeW (w : Nat) (currTime : Int) (s : State) : State :=
  let s := { s with
    cpmTimeMSec := wrapInt w (s.cpmTimeMSec + elapsedInt w currTime s._prevTime) }
  if s.cpmTimeMSec ≥ 1000 then secondTick s else s

/-- A state with `_cpm = 11` and `cpmTimeSec = 11`. -/
def elevenCounts : State := { initial 0 with _cpm := 11, cpmTimeSec := 11 }

/-! ## Basic facts about the noise poll and the idle iterations -/

theorem pollNoise_frame (noise : Int) (s : State) :
    (pollNoise noise s).index = s.index ∧ (pollNoise noise s).signCount = s.signCount ∧
    (pollNoise noise s)._prevTime = s._prevTime ∧ (pollNoise noise s)._cpm = s._cpm ∧
    (pollNoise noise s)._cpmHistory = s._cpmHistory ∧ (pollNoise noise s).cpmIndex = s.cpmIndex ∧
    (pollNoise noise s).cpmIndexPrev = s.cpmIndexPrev ∧ (pollNoise noise s).totalSec = s.totalSec ∧
    (pollNoise noise s).totalHour = s.totalHour ∧ (pollNoise noise s).cpmTimeMSec = s.cpmTimeMSec ∧
    (pollNoise noise s).cpmTimeSec = s.cpmTimeSec ∧ (pollNoise noise s).printed = s.printed := by
  unfold pollNoise
  split_ifs <;> simp

/-- Claim C1 (noise rejection): a `loop()` call that evaluates a batch
(`index == 10000`) with `noiseCount > 0` after its noise poll leaves `_cpm`, every
bin of `_cpmHistory`, `cpmIndex`, `cpmIndexPrev`, `cpmTimeMSec`, `cpmTimeSec`,
`totalSec` and `totalHour` unchanged, for every `signCount` and clock reading. -/
theorem noise_rejection (s : State) (noise millis : Int) (hidx : s.index = 10000)
    (hnoise : 0 < (pollNoise noise s).noiseCount) :
    (loop noise millis s)._cpm = s._cpm ∧
    (loop noise millis s)._cpmHistory = s._cpmHistory ∧
    (loop noise millis s).cpmIndex = s.cpmIndex ∧
    (loop noise millis s).cpmIndexPrev = s.cpmIndexPrev ∧
    (loop noise millis s).cpmTimeMSec = s.cpmTimeMSec ∧
    (loop noise millis s).cpmTimeSec = s.cpmTimeSec ∧
    (loop noise millis s).totalSec = s.totalSec ∧
    (loop noise millis s).totalHour = s.totalHour := by
  obtain ⟨h1, -, -, h4, h5, h6, h7, h8, h9, h10, h11, -⟩ := pollNoise_frame noise s
  have hne : (pollNoise noise s).noiseCount ≠ 0 := by omega
  simp only [loop, evaluate, h1, hidx, if_true, if_neg hne]
  exact ⟨h4, h5, h6, h7, h10, h11, h8, h9⟩

/-- Witness for C1: the evaluating call sees the noise line rise; 7 pending pulses
and the clock reading 123 have no effect on the accumulators. -/
theorem noise_rejection_witness :
    sevenPending.index = 10000 ∧ 0 < (pollNoise 1 sevenPending).noiseCount ∧
    (loop 1 123 sevenPending)._cpm = sevenPending._cpm ∧
    (loop 1 123 sevenPending).cpmTimeMSec = sevenPending.cpmTimeMSec :=
  have h := noise_rejection sevenPending 1 123 rfl (by decide)
  ⟨rfl, by decide, h.1, h.2.2.2.2.1⟩

/-! ## The sum invariant -/

theorem sum_set_int (l : List Int) (i : Nat) (v : Int) (h : i < l.length) :
    (l.set i v).sum = l.sum - l.getD i 0 + v := by
  induction l generalizing i with
  | nil => simp at h
  | cons a l ih =>
    cases i with
    | zero => simp; ring
    | succ i =>
      have h2 : i < l.length := by simpa using h
      simp [ih i h2]; ring

theorem getD_nonneg (l : List Int) (i : Nat) (h : ∀ x ∈ l, 0 ≤ x) : 0 ≤ l.getD i 0 := by
  by_cases hi : i < l.length
  · rw [List.getD_eq_getElem l 0 hi]
    exact h _ (List.getElem_mem hi)
  · rw [List.getD_eq_default l 0 (by omega)]

theorem set_nonneg (l : List Int) (i : Nat) (v : Int) (h : ∀ x ∈ l, 0 ≤ x) (hv : 0 ≤ v) :
    ∀ x ∈ l.set i v, 0 ≤ x := by
  intro x hx
  rcases List.mem_or_eq_of_mem_set hx with h1 | h1
  · exact h x h1
  · rw [h1]; exact hv

theorem shiftBody_sumInv (s : State) (h : SumInv s) : SumInv (shiftBody s) := by
  obtain ⟨hlen, h0, h1, hnn, hsum, hsc⟩ := h
  unfold SumInv histSum at *
  unfold shiftBody bin
  simp only [kHistoryCount] at *
  split_ifs with ha hb hb
  · have hb2 : 0 < s._cpmHistory.getD 0 0 := by simpa using hb
    refine ⟨by simp [hlen], by simp, by simp, ?_, ?_, hsc⟩
    · exact set_nonneg _ _ _ hnn (le_refl 0)
    · simp only [Int.toNat_zero]
      rw [sum_set_int _ _ _ (by omega), hsum]; ring
  · have hb2 : ¬ 0 < s._cpmHistory.getD 0 0 := by simpa using hb
    have := getD_nonneg s._cpmHistory 0 hnn
    refine ⟨by simp [hlen], by simp, by simp, ?_, ?_, hsc⟩
    · exact set_nonneg _ _ _ hnn (le_refl 0)
    · simp only [Int.toNat_zero]
      rw [sum_set_int _ _ _ (by omega), hsum]; omega
  · have ha2 : s.cpmIndex + 1 < 200 := by simpa using ha
    refine ⟨by simp [hlen], by simp; omega, by simp; omega, ?_, ?_, hsc⟩
    · exact set_nonneg _ _ _ hnn (le_refl 0)
    · simp only []
      rw [sum_set_int _ _ _ (by omega), hsum]; ring
  · have ha2 : s.cpmIndex + 1 < 200 := by simpa using ha
    have hb2 : ¬ 0 < s._cpmHistory.getD (s.cpmIndex + 1).toNat 0 := by simpa using hb
    have := getD_nonneg s._cpmHistory (s.cpmIndex + 1).toNat hnn
    refine ⟨by simp [hlen], by simp; omega, by simp; omega, ?_, ?_, hsc⟩
    · exact set_nonneg _ _ _ hnn (le_refl 0)
    · simp only []
      rw [sum_set_int _ _ _ (by omega), hsum]; omega

theorem shiftHistory_sumInv (s : State) (h : SumInv s) : SumInv (shiftHistory s) := by
  unfold shiftHistory
  split_ifs
  · exact shiftBody_sumInv s h
  · exact h

theorem storeCount_sumInv (s : State) (h : SumInv s) : SumInv (storeCount s) := by
  obtain ⟨hlen, h0, h1, hnn, hsum, hsc⟩ := h
  unfold SumInv histSum at *
  unfold storeCount bin
  simp only [kHistoryCount] at *
  have hb := getD_nonneg s._cpmHistory s.cpmIndex.toNat hnn
  refine ⟨by simp [hlen], h0, h1, ?_, ?_, hsc⟩
  · exact set_nonneg _ _ _ hnn (by omega)
  · rw [sum_set_int _ _ _ (by omega), hsum]; ring

theorem secondTick_frame (s : State) :
    (secondTick s)._cpm = s._cpm ∧ (secondTick s)._cpmHistory = s._cpmHistory ∧
    (secondTick s).cpmIndex = s.cpmIndex ∧ (secondTick s).cpmIndexPrev = s.cpmIndexPrev ∧
    (secondTick s).signCount = s.signCount ∧ (secondTick s).index = s.index ∧
    (secondTick s).nON = s.nON ∧ (secondTick s).noiseCount = s.noiseCount ∧
    (secondTick s)._prevTime = s._prevTime ∧ (secondTick s).printed = s.printed := by
  simp only [secondTick]
  split_ifs <;> simp

theorem addTime_frame (t : Int) (s : State) :
    (addTime t s)._cpm = s._cpm ∧ (addTime t s)._cpmHistory = s._cpmHistory ∧
    (addTime t s).cpmIndex = s.cpmIndex ∧ (addTime t s).cpmIndexPrev = s.cpmIndexPrev ∧
    (addTime t s).signCount = s.signCount ∧ (addTime t s).index = s.index ∧
    (addTime t s).nON = s.nON ∧ (addTime t s).noiseCount = s.noiseCount ∧
    (addTime t s)._prevTime = s._prevTime ∧ (addTime t s).printed = s.printed := by
  simp only [addTime]
  split_ifs
  · exact secondTick_frame _
  · simp

theorem addTime_sumInv (t : Int) (s : State) (h : SumInv s) : SumInv (addTime t s) := by
  obtain ⟨a1, a2, a3, -, a5, -, -, -, -, -⟩ := addTime_frame t s
  unfold SumInv histSum at *
  rw [a1, a2, a3, a5]
  exact h

theorem cleanBatch_sumInv (t : Int) (s : State) (h : SumInv s) : SumInv (cleanBatch t s) := by
  have h3 := addTime_sumInv t _ (storeCount_sumInv _ (shiftHistory_sumInv s h))
  unfold cleanBatch printStatus
  exact h3

theorem evaluate_sumInv (t : Int) (s : State) (h : SumInv s) : SumInv (evaluate t s) := by
  unfold evaluate
  split_ifs
  · obtain ⟨b1, b2, b3, b4, b5, -⟩ := cleanBatch_sumInv t s h
    exact ⟨b1, b2, b3, b4, b5, le_refl 0⟩
  · obtain ⟨b1, b2, b3, b4, b5, -⟩ := h
    exact ⟨b1, b2, b3, b4, b5, le_refl 0⟩

theorem pollNoise_sumInv (noise : Int) (s : State) (h : SumInv s) : SumInv (pollNoise noise s) := by
  obtain ⟨-, a2, -, a4, a5, a6, -, -, -, -, -, -⟩ := pollNoise_frame noise s
  unfold SumInv histSum at *
  rw [a2, a4, a5, a6]
  exact h

theorem loop_sumInv (noise t : Int) (s : State) (h : SumInv s) : SumInv (loop noise t s) := by
  have h1 := pollNoise_sumInv noise s h
  unfold loop
  simp only []
  split_ifs
  · exact evaluate_sumInv t _ h1
  · exact h1

theorem initial_sumInv (t : Int) : SumInv (initial t) := by
  refine ⟨by simp [initial, setup], by simp [initial, setup, constructor],
    by simp [initial, setup, constructor, kHistoryCount], ?_, ?_,
    by simp [initial, setup, constructor]⟩
  · intro x hx
    have := List.eq_of_mem_replicate hx
    simp [initial, setup] at hx
    omega
  · simp [initial, setup, constructor, histSum]

theorem step_sumInv (s : State) (e : Event) (h : SumInv s) : SumInv (step s e) := by
  cases e with
  | pulse =>
    obtain ⟨b1, b2, b3, b4, b5, b6⟩ := h
    exact ⟨b1, b2, b3, b4, b5, by simp only [step, triggerRadiationPulse]; omega⟩
  | loop noise t => exact loop_sumInv noise t s h

theorem run_sumInv (evs : List Event) (s : State) (h : SumInv s) : SumInv (run s evs) := by
  induction evs generalizing s with
  | nil => exact h
  | cons e evs ih => exact ih _ (step_sumInv s e h)

theorem evaluation_sumInv (b : Batch) (s : State) (h : SumInv s) (hb : 0 ≤ b.signCount) :
    SumInv (evaluation b s) := by
  obtain ⟨b1, b2, b3, b4, b5, -⟩ := h
  exact loop_sumInv _ _ _ ⟨b1, b2, b3, b4, b5, hb⟩

theorem evaluations_sumInv (bs : List Batch) (s : State) (h : SumInv s)
    (hb : ∀ b ∈ bs, 0 ≤ b.signCount) : SumInv (evaluations s bs) := by
  induction bs generalizing s with
  | nil => exact h
  | cons b bs ih =>
    exact ih _ (evaluation_sumInv b s h (hb b (List.mem_cons_self b bs)))
      (fun c hc => hb c (List.mem_cons_of_mem b hc))

/-! ## The time accumulators -/

theorem abs_nonneg (x : Int) : 0 ≤ abs x := by
  unfold abs
  split_ifs <;> omega

theorem secondTick_time (s : State) :
    (secondTick s).cpmTimeMSec = s.cpmTimeMSec - 1000 ∧
    (secondTick s).cpmTimeSec = (if s.cpmTimeSec ≥ 1200 then 1200 else s.cpmTimeSec + 1) ∧
    (secondTick s).totalSec = (if s.totalSec + 1 ≥ 3600 then s.totalSec + 1 - 3600
      else s.totalSec + 1) ∧
    (secondTick s).totalHour = (if s.totalSec + 1 ≥ 3600 then s.totalHour + 1
      else s.totalHour) := by
  simp only [secondTick]
  split_ifs <;> simp_all

theorem secondTick_timeInv (s : State) (h : TimeInv s) (hm : 1000 ≤ s.cpmTimeMSec) :
    TimeInv (secondTick s) ∧ elapsedSec (secondTick s) = elapsedSec s + 1 := by
  obtain ⟨a1, a2, a3, a4⟩ := secondTick_time s
  obtain ⟨h1, h2, h3, h4, h5⟩ := h
  unfold TimeInv elapsedSec at *
  rw [a1, a2, a3, a4]
  split_ifs <;> omega

theorem addTime_timeInv (t : Int) (s : State) (h : TimeInv s) :
    TimeInv (addTime t s) ∧ elapsedSec s ≤ elapsedSec (addTime t s) := by
  have hab := abs_nonneg (t - s._prevTime)
  simp only [addTime]
  split_ifs with hc
  · have := secondTick_timeInv
      { s with cpmTimeMSec := s.cpmTimeMSec + abs (t - s._prevTime) }
      (by unfold TimeInv elapsedSec at *; simp only []; omega) hc
    refine ⟨this.1, ?_⟩
    rw [this.2]
    simp only [elapsedSec]
    omega
  · refine ⟨?_, le_refl _⟩
    unfold TimeInv elapsedSec at *
    simp only []
    omega

theorem shiftHistory_time (s : State) :
    (shiftHistory s).totalSec = s.totalSec ∧ (shiftHistory s).totalHour = s.totalHour ∧
    (shiftHistory s).cpmTimeSec = s.cpmTimeSec ∧ (shiftHistory s).cpmTimeMSec = s.cpmTimeMSec ∧
    (shiftHistory s)._prevTime = s._prevTime ∧ (shiftHistory s).signCount = s.signCount ∧
    (shiftHistory s).index = s.index ∧ (shiftHistory s).nON = s.nON ∧
    (shiftHistory s).noiseCount = s.noiseCount ∧ (shiftHistory s).printed = s.printed := by
  simp only [shiftHistory, shiftBody]
  split_ifs <;> simp

theorem storeCount_time (s : State) :
    (storeCount s).totalSec = s.totalSec ∧ (storeCount s).totalHour = s.totalHour ∧
    (storeCount s).cpmTimeSec = s.cpmTimeSec ∧ (storeCount s).cpmTimeMSec = s.cpmTimeMSec ∧
    (storeCount s)._prevTime = s._prevTime ∧ (storeCount s).signCount = s.signCount ∧
    (storeCount s).index = s.index ∧ (storeCount s).nON = s.nON ∧
    (storeCount s).noiseCount = s.noiseCount ∧ (storeCount s).printed = s.printed ∧
    (storeCount s).cpmIndex = s.cpmIndex ∧ (storeCount s).cpmIndexPrev = s.cpmIndexPrev := by
  simp [storeCount]

theorem timeInv_congr (s s' : State) (h : TimeInv s) (h1 : s'.totalSec = s.totalSec)
    (h2 : s'.totalHour = s.totalHour) (h3 : s'.cpmTimeSec = s.cpmTimeSec)
    (h4 : s'.cpmTimeMSec = s.cpmTimeMSec) : TimeInv s' ∧ elapsedSec s' = elapsedSec s := by
  unfold TimeInv elapsedSec at *
  rw [h1, h2, h3, h4]
  exact ⟨h, rfl⟩

theorem cleanBatch_timeInv (t : Int) (s : State) (h : TimeInv s) :
    TimeInv (cleanBatch t s) ∧ elapsedSec s ≤ elapsedSec (cleanBatch t s) := by
  obtain ⟨a1, a2, a3, a4, -⟩ := shiftHistory_time s
  obtain ⟨b1, b2, b3, b4, -⟩ := storeCount_time (shiftHistory s)
  have h1 := timeInv_congr s (storeCount (shiftHistory s)) h (by rw [b1, a1]) (by rw [b2, a2])
    (by rw [b3, a3]) (by rw [b4, a4])
  have h2 := addTime_timeInv t _ h1.1
  rw [h1.2] at h2
  exact h2

theorem evaluate_timeInv (t : Int) (s : State) (h : TimeInv s) :
    TimeInv (evaluate t s) ∧ elapsedSec s ≤ elapsedSec (evaluate t s) := by
  simp only [evaluate]
  split_ifs
  · exact cleanBatch_timeInv t s h
  · exact ⟨h, le_refl _⟩

theorem loop_timeInv (noise t : Int) (s : State) (h : TimeInv s) :
    TimeInv (loop noise t s) ∧ elapsedSec s ≤ elapsedSec (loop noise t s) := by
  obtain ⟨-, -, -, -, -, -, -, a8, a9, a10, a11, -⟩ := pollNoise_frame noise s
  have h1 := timeInv_congr s (pollNoise noise s) h a8 a9 a11 a10
  simp only [loop]
  split_ifs
  · have h2 := evaluate_timeInv t _ h1.1
    rw [h1.2] at h2
    exact h2
  · exact ⟨h1.1, le_of_eq h1.2.symm⟩

theorem step_timeInv (s : State) (e : Event) (h : TimeInv s) :
    TimeInv (step s e) ∧ elapsedSec s ≤ elapsedSec (step s e) := by
  cases e with
  | pulse => exact ⟨h, le_refl _⟩
  | loop noise t => exact loop_timeInv noise t s h

theorem run_timeInv (evs : List Event) (s : State) (h : TimeInv s) :
    TimeInv (run s evs) ∧ elapsedSec s ≤ elapsedSec (run s evs) := by
  induction evs generalizing s with
  | nil => exact ⟨h, le_refl _⟩
  | cons e evs ih =>
    have h1 := step_timeInv s e h
    have h2 := ih _ h1.1
    exact ⟨h2.1, le_trans h1.2 h2.2⟩

theorem initial_timeInv (t : Int) : TimeInv (initial t) := by
  simp [TimeInv, elapsedSec, initial, setup, constructor]

/-- Claim C3 (window cap): in every state reachable from the initial state,
`cpmTimeSec == min(3600 * totalHour + totalSec, 1200)`; so `cpmTimeSec` never
exceeds 1200, is never greater than the total elapsed seconds, and once it has
reached 1200 it stays there whatever happens next. -/
theorem window_cap (millis : Int) (evs later : List Event) :
    (run (initial millis) evs).cpmTimeSec =
      min (3600 * (run (initial millis) evs).totalHour + (run (initial millis) evs).totalSec) 1200 ∧
    (run (initial millis) evs).cpmTimeSec ≤ 1200 ∧
    (run (initial millis) evs).cpmTimeSec ≤
      3600 * (run (initial millis) evs).totalHour + (run (initial millis) evs).totalSec ∧
    ((run (initial millis) evs).cpmTimeSec = 1200 →
      (run (run (initial millis) evs) later).cpmTimeSec = 1200) := by
  have h := run_timeInv evs _ (initial_timeInv millis)
  have h2 := run_timeInv later _ h.1
  obtain ⟨⟨-, -, -, a4, -⟩, -⟩ := h
  obtain ⟨⟨-, -, -, b4, -⟩, b6⟩ := h2
  unfold elapsedSec at *
  refine ⟨a4, ?_, ?_, ?_⟩
  · omega
  · omega
  · intro h5
    omega

/-! ## The dose estimator -/

theorem cpmTime_ne_zero_iff (s : State) : cpmTime s ≠ 0 ↔ s.cpmTimeSec ≠ 0 := by
  unfold cpmTime
  norm_num

/-- Claim C4 (availability): `isAvailable()` returns false if and only if
`cpmTimeSec == 0`; `cpmTime()` is non-zero exactly when `cpmTimeSec` is. -/
theorem availability (s : State) :
    (isAvailable s = false ↔ s.cpmTimeSec = 0) ∧ (cpmTime s ≠ 0 ↔ s.cpmTimeSec ≠ 0) := by
  refine ⟨?_, cpmTime_ne_zero_iff s⟩
  have h := cpmTime_ne_zero_iff s
  unfold isAvailable
  simp only [bne_eq_false_iff_eq]
  constructor
  · intro h1
    by_contra h2
    exact (h.mpr h2) h1
  · intro h1
    by_contra h2
    exact (h.mp h2) h1

theorem rne_err (y : ℚ) : |(rne y : ℚ) - y| ≤ 1 / 2 := by
  have h1 := Int.floor_le y
  have h2 := Int.lt_floor_add_one y
  unfold rne
  rw [abs_le]
  split_ifs <;> push_cast <;> constructor <;> linarith

theorem rne_near (y : ℚ) (m : ℤ) (h : |y - m| < 1 / 2) : rne y = m := by
  rw [abs_lt] at h
  obtain ⟨h1, h2⟩ := h
  by_cases hc : (m : ℚ) ≤ y
  · have hf : ⌊y⌋ = m := Int.floor_eq_iff.mpr ⟨hc, by linarith⟩
    unfold rne
    rw [hf, if_pos (by linarith)]
  · push_neg at hc
    have hf : ⌊y⌋ = m - 1 := Int.floor_eq_iff.mpr ⟨by push_cast; linarith, by push_cast; linarith⟩
    unfold rne
    rw [hf, if_neg (by push_cast; linarith), if_pos (by push_cast; linarith)]
    ring

theorem rne_int (n : ℤ) : rne (n : ℚ) = n := rne_near _ n (by simp)

theorem log_bounds (x : ℚ) (hx : x ≠ 0) :
    (2 : ℚ) ^ Int.log 2 |x| ≤ |x| ∧ |x| < (2 : ℚ) ^ (Int.log 2 |x| + 1) := by
  have h0 : 0 < |x| := abs_pos.mpr hx
  have h1 := Int.zpow_log_le_self (b := 2) (by norm_num) h0
  have h2 := Int.lt_zpow_succ_log_self (b := 2) (by norm_num) |x|
  exact ⟨by exact_mod_cast h1, by exact_mod_cast h2⟩

theorem log_unique (x : ℚ) (l : ℤ) (h1 : (2 : ℚ) ^ l ≤ |x|) (h2 : |x| < (2 : ℚ) ^ (l + 1)) :
    Int.log 2 |x| = l := by
  have h0 : 0 < |x| := lt_of_lt_of_le (by positivity) h1
  have hx : x ≠ 0 := abs_pos.mp h0
  obtain ⟨b1, b2⟩ := log_bounds x hx
  have c1 : (2 : ℚ) ^ l < (2 : ℚ) ^ (Int.log 2 |x| + 1) := lt_of_le_of_lt h1 b2
  have c2 : (2 : ℚ) ^ Int.log 2 |x| < (2 : ℚ) ^ (l + 1) := lt_of_le_of_lt b1 h2
  rw [zpow_lt_zpow_iff_right₀ (by norm_num)] at c1 c2
  omega

theorem fl_zero (p : ℕ) : fl p 0 = 0 := by simp [fl]

theorem fl_err (p : ℕ) (x : ℚ) : |fl p x - x| ≤ (2 : ℚ) ^ (-(p : ℤ)) * |x| := by
  by_cases hx : x = 0
  · subst hx; simp [fl]
  obtain ⟨b1, -⟩ := log_bounds x hx
  have hpos : (0 : ℚ) < 2 ^ (Int.log 2 |x| - ((p : ℤ) - 1)) := by positivity
  have he : (2 : ℚ) ^ (Int.log 2 |x| - ((p : ℤ) - 1)) =
      2 * (2 ^ (-(p : ℤ)) * 2 ^ Int.log 2 |x|) := by
    rw [show Int.log 2 |x| - ((p : ℤ) - 1) = 1 + (-(p : ℤ) + Int.log 2 |x|) by ring,
      zpow_add₀ (by norm_num), zpow_add₀ (by norm_num), zpow_one]
  have hr := rne_err (x / 2 ^ (Int.log 2 |x| - ((p : ℤ) - 1)))
  have e1 : fl p x - x = ((rne (x / 2 ^ (Int.log 2 |x| - ((p : ℤ) - 1))) : ℚ) -
      x / 2 ^ (Int.log 2 |x| - ((p : ℤ) - 1))) * 2 ^ (Int.log 2 |x| - ((p : ℤ) - 1)) := by
    simp only [fl, if_neg hx]
    field_simp
  rw [e1, abs_mul, abs_of_pos hpos]
  have hu : (0 : ℚ) < 2 ^ (-(p : ℤ)) := by positivity
  calc _ ≤ 1 / 2 * (2 : ℚ) ^ (Int.log 2 |x| - ((p : ℤ) - 1)) :=
        mul_le_mul_of_nonneg_right hr (le_of_lt hpos)
    _ = 2 ^ (-(p : ℤ)) * 2 ^ Int.log 2 |x| := by rw [he]; ring
    _ ≤ 2 ^ (-(p : ℤ)) * |x| := mul_le_mul_of_nonneg_left b1 (le_of_lt hu)

theorem fl_eq (p : ℕ) (x : ℚ) (e m : ℤ) (h1 : (2 : ℚ) ^ ((p : ℤ) - 1) ≤ x / 2 ^ e)
    (h2 : x / 2 ^ e < (2 : ℚ) ^ (p : ℤ)) (h3 : |x / 2 ^ e - m| < 1 / 2) :
    fl p x = m * 2 ^ e := by
  have hpe : (0 : ℚ) < 2 ^ e := by positivity
  have hq : (0 : ℚ) < x / 2 ^ e := lt_of_lt_of_le (by positivity) h1
  have hx : 0 < x := by
    have := mul_pos hq hpe
    rwa [div_mul_cancel₀ _ (ne_of_gt hpe)] at this
  have hl : Int.log 2 |x| = e + ((p : ℤ) - 1) := by
    apply log_unique
    · rw [abs_of_pos hx, add_comm, zpow_add₀ (by norm_num)]
      rwa [le_div_iff₀ hpe] at h1
    · rw [abs_of_pos hx, show e + ((p : ℤ) - 1) + 1 = (p : ℤ) + e by ring,
        zpow_add₀ (by norm_num)]
      rwa [div_lt_iff₀ hpe] at h2
  have he : Int.log 2 |x| - ((p : ℤ) - 1) = e := by omega
  simp only [fl, if_neg (ne_of_gt hx), he]
  rw [rne_near _ m h3]

theorem fl_ne_zero (p : ℕ) (hp : 1 ≤ p) (x : ℚ) (hx : x ≠ 0) : fl p x ≠ 0 := by
  intro h
  have h1 := fl_err p x
  rw [h, zero_sub, abs_neg] at h1
  have h0 : 0 < |x| := abs_pos.mpr hx
  have hu : (2 : ℚ) ^ (-(p : ℤ)) ≤ 1 / 2 := by
    rw [show (1 : ℚ) / 2 = 2 ^ (-(1 : ℤ)) by norm_num]
    exact zpow_le_zpow_right₀ (by norm_num) (by omega)
  nlinarith

theorem fl_repr (p : ℕ) (m k : ℤ) (hm : |m| < 2 ^ p) : fl p ((m : ℚ) * 2 ^ k) = (m : ℚ) * 2 ^ k := by
  by_cases h0 : m = 0
  · subst h0; simp [fl]
  have hk : (0 : ℚ) < 2 ^ k := by positivity
  have hx : (m : ℚ) * 2 ^ k ≠ 0 := mul_ne_zero (by exact_mod_cast h0) (ne_of_gt hk)
  obtain ⟨b1, -⟩ := log_bounds _ hx
  have hm2 : |(m : ℚ)| < 2 ^ (p : ℤ) := by
    rw [zpow_natCast]
    exact_mod_cast hm
  have b2 : (2 : ℚ) ^ Int.log 2 |(m : ℚ) * 2 ^ k| < 2 ^ ((p : ℤ) + k) := by
    refine lt_of_le_of_lt b1 ?_
    rw [abs_mul, abs_of_pos hk, zpow_add₀ (by norm_num)]
    exact mul_lt_mul_of_pos_right hm2 hk
  rw [zpow_lt_zpow_iff_right₀ (by norm_num)] at b2
  obtain ⟨n, hn⟩ : ∃ n : ℕ, k - (Int.log 2 |(m : ℚ) * 2 ^ k| - ((p : ℤ) - 1)) = (n : ℤ) :=
    ⟨(k - (Int.log 2 |(m : ℚ) * 2 ^ k| - ((p : ℤ) - 1))).toNat, by omega⟩
  have he : (m : ℚ) * 2 ^ k / 2 ^ (Int.log 2 |(m : ℚ) * 2 ^ k| - ((p : ℤ) - 1)) =
      ((m * 2 ^ n : ℤ) : ℚ) := by
    rw [mul_div_assoc, ← zpow_sub₀ (by norm_num), hn, zpow_natCast]
    push_cast
    ring
  have hk2 : k = (n : ℤ) + (Int.log 2 |(m : ℚ) * 2 ^ k| - ((p : ℤ) - 1)) := by omega
  simp only [fl, if_neg hx]
  have h2k : (2 : ℚ) ^ k =
      2 ^ n * 2 ^ (Int.log 2 |(m : ℚ) * 2 ^ k| - ((p : ℤ) - 1)) := by
    rw [← zpow_natCast, ← zpow_add₀ (by norm_num)]
    exact congrArg (fun z : ℤ => (2 : ℚ) ^ z) hk2
  rw [he, rne_int]
  conv_rhs => rw [h2k]
  push_cast
  ring

theorem fl_int (p : ℕ) (n : ℤ) (hn : |n| < 2 ^ p) : fl p (n : ℚ) = n := by
  have h := fl_repr p n 0 hn
  simpa using h

theorem unit_roundoff (p : ℕ) (hp : 4 ≤ p) :
    (0 : ℚ) < 2 ^ (-(p : ℤ)) ∧ (2 : ℚ) ^ (-(p : ℤ)) ≤ 1 / 16 := by
  refine ⟨by positivity, ?_⟩
  rw [show (1 : ℚ) / 16 = 2 ^ (-(4 : ℤ)) by norm_num]
  exact zpow_le_zpow_right₀ (by norm_num) (by omega)

theorem close_fl (p : ℕ) (x' x α : ℚ) (h : |x' - x| ≤ α * |x|) :
    |fl p x' - x| ≤ (α + 2 ^ (-(p : ℤ)) + α * 2 ^ (-(p : ℤ))) * |x| := by
  have hu : (0 : ℚ) < 2 ^ (-(p : ℤ)) := by positivity
  have h1 := fl_err p x'
  have h2 : |x'| ≤ |x| + |x' - x| := by
    have := abs_add (x' - x) x
    rw [sub_add_cancel] at this
    linarith
  have h3 : |fl p x' - x| ≤ |fl p x' - x'| + |x' - x| := by
    have := abs_add (fl p x' - x') (x' - x)
    rw [sub_add_sub_cancel] at this
    exact this
  have h4 : (2 : ℚ) ^ (-(p : ℤ)) * |x'| ≤ 2 ^ (-(p : ℤ)) * (|x| + α * |x|) :=
    mul_le_mul_of_nonneg_left (by linarith) (le_of_lt hu)
  nlinarith

theorem close_div (a' a b' b α β : ℚ) (hα : 0 ≤ α) (hβ0 : 0 ≤ β) (hβ : β < 1)
    (ha : |a' - a| ≤ α * |a|) (hb : |b' - b| ≤ β * |b|) :
    |a' / b' - a / b| ≤ (α + β) / (1 - β) * |a / b| := by
  by_cases hb0 : b = 0
  · subst hb0
    have : b' = 0 := by
      rw [abs_zero, mul_zero, sub_zero] at hb
      exact abs_eq_zero.mp (le_antisymm hb (by positivity))
    subst this
    simp
  have hbp : 0 < |b| := abs_pos.mpr hb0
  have h1 : (1 - β) * |b| ≤ |b'| := by
    have := abs_sub_abs_le_abs_sub b b'
    rw [abs_sub_comm b b'] at this
    linarith
  have h1p : 0 < (1 - β) * |b| := mul_pos (by linarith) hbp
  have hb'p : 0 < |b'| := lt_of_lt_of_le h1p h1
  have hb'0 : b' ≠ 0 := abs_pos.mp hb'p
  have e : a' / b' - a / b = ((a' - a) * b - a * (b' - b)) / (b' * b) := by
    field_simp
    ring
  have key : |(a' - a) * b - a * (b' - b)| ≤ (α + β) * |a| * |b| := by
    have t1 := abs_sub ((a' - a) * b) (a * (b' - b))
    rw [abs_mul, abs_mul] at t1
    have t2 : |a' - a| * |b| ≤ α * |a| * |b| := mul_le_mul_of_nonneg_right ha (by positivity)
    have t3 : |a| * |b' - b| ≤ |a| * (β * |b|) := mul_le_mul_of_nonneg_left hb (by positivity)
    nlinarith
  rw [e, abs_div, abs_mul, abs_div]
  calc |(a' - a) * b - a * (b' - b)| / (|b'| * |b|)
      ≤ ((α + β) * |a| * |b|) / ((1 - β) * |b| * |b|) :=
        div_le_div₀ (by positivity) key (mul_pos h1p hbp)
          (mul_le_mul_of_nonneg_right h1 (by positivity))
    _ = (α + β) / (1 - β) * (|a| / |b|) := by
        have : (1 - β) ≠ 0 := by linarith
        field_simp
        ring

theorem close_mono (y x α β : ℚ) (h : |y - x| ≤ α * |x|) (hab : α ≤ β) :
    |y - x| ≤ β * |x| :=
  le_trans h (mul_le_mul_of_nonneg_right hab (by positivity))

theorem quotient_err (p : ℕ) (hp : 4 ≤ p) (a t : ℚ) :
    |fl p (fl p a / fl p (fl p t / 60)) - 60 * a / t| ≤ 5 * 2 ^ (-(p : ℤ)) * |60 * a / t| := by
  obtain ⟨u0, u1⟩ := unit_roundoff p hp
  have e : 60 * a / t = a / (t / 60) := by
    by_cases ht : t = 0
    · subst ht; simp
    · field_simp
      ring
  rw [e]
  have h1 : |fl p t / 60 - t / 60| ≤ (2 ^ (-(p : ℤ)) + 0) / (1 - 0) * |t / 60| :=
    close_div (fl p t) t 60 60 _ 0 (le_of_lt u0) (le_refl 0) (by norm_num) (fl_err p t)
      (by simp)
  rw [add_zero, sub_zero, div_one] at h1
  have h2 := close_fl p _ _ _ h1
  have hb : (2 : ℚ) ^ (-(p : ℤ)) + 2 ^ (-(p : ℤ)) + 2 ^ (-(p : ℤ)) * 2 ^ (-(p : ℤ)) < 1 := by
    nlinarith
  have h3 := close_div (fl p a) a _ _ _ _ (le_of_lt u0) (by positivity) hb (fl_err p a) h2
  have h4 := close_fl p _ _ _ h3
  refine close_mono _ _ _ _ h4 ?_
  generalize (2 : ℚ) ^ (-(p : ℤ)) = u at *
  have hd : 0 < 1 - (u + u + u * u) := by linarith
  have hg : (u + (u + u + u * u)) / (1 - (u + u + u * u)) * (1 + u) ≤ 4 * u := by
    rw [div_mul_eq_mul_div, div_le_iff₀ hd]
    nlinarith [mul_pos u0 u0, mul_pos (mul_pos u0 u0) u0]
  nlinarith

theorem scaled_err (p : ℕ) (hp : 4 ≤ p) (c k : ℚ) :
    |fl p (c / fl p k) - c / k| ≤ 3 * 2 ^ (-(p : ℤ)) * |c / k| := by
  obtain ⟨u0, u1⟩ := unit_roundoff p hp
  have h3 := close_div c c (fl p k) k 0 _ (le_refl 0) (le_of_lt u0) (by linarith) (by simp)
    (fl_err p k)
  have h4 := close_fl p _ _ _ h3
  refine close_mono _ _ _ _ h4 ?_
  generalize (2 : ℚ) ^ (-(p : ℤ)) = u at *
  have hd : 0 < 1 - u := by linarith
  have hg : (0 + u) / (1 - u) * (1 + u) ≤ 2 * u := by
    rw [div_mul_eq_mul_div, div_le_iff₀ hd]
    nlinarith [mul_pos u0 u0]
  nlinarith

theorem fl_sixty (p : ℕ) (hp : 4 ≤ p) : fl p 60 = 60 := by
  have h16 : (2 : ℤ) ^ 4 ≤ 2 ^ p := pow_le_pow_right₀ (by norm_num) hp
  have h : |(15 : ℤ)| < 2 ^ p := by
    rw [abs_of_pos (by norm_num)]
    linarith
  have := fl_repr p 15 2 h
  norm_num at this ⊢
  exact this

theorem fl_one (p : ℕ) (hp : 1 ≤ p) : fl p 1 = 1 := by
  have h : |(1 : ℤ)| < 2 ^ p := by
    rw [abs_one]
    exact one_lt_pow₀ (by norm_num) (by omega)
  simpa using fl_int p 1 h

theorem cpmTimeFl_eq (p : ℕ) (hp : 4 ≤ p) (s : State) :
    cpmTimeFl p s = fl p (fl p (s.cpmTimeSec : ℚ) / 60) := by
  simp only [cpmTimeFl]
  rw [show (60.0 : ℚ) = 60 by norm_num, fl_sixty p hp]

theorem cpmTimeFl_ne_zero_iff (p : ℕ) (hp : 4 ≤ p) (s : State) :
    cpmTimeFl p s ≠ 0 ↔ s.cpmTimeSec ≠ 0 := by
  rw [cpmTimeFl_eq p hp]
  constructor
  · intro h h0
    apply h
    rw [h0]
    simp [fl_zero]
  · intro h
    apply fl_ne_zero p (by omega)
    apply div_ne_zero _ (by norm_num)
    apply fl_ne_zero p (by omega)
    exact_mod_cast h

theorem cpm_eq (p : ℕ) (hp : 4 ≤ p) (s : State) (h : s.cpmTimeSec ≠ 0) :
    cpm p s = fl p (fl p (s._cpm : ℚ) / fl p (fl p (s.cpmTimeSec : ℚ) / 60)) := by
  have h1 := (cpmTimeFl_ne_zero_iff p hp s).mpr h
  simp only [cpm, if_pos h1]
  rw [cpmTimeFl_eq p hp]

theorem cpm_zero (p : ℕ) (hp : 4 ≤ p) (s : State) (h : s.cpmTimeSec = 0) :
    cpm p s = 0 ∧ uSvh p s = 0 := by
  have h1 : ¬ cpmTimeFl p s ≠ 0 := fun hc => (cpmTimeFl_ne_zero_iff p hp s).mp hc h
  have h3 : cpm p s = 0 := by simp only [cpm, if_neg h1]
  exact ⟨h3, by simp only [uSvh, h3, zero_div, fl_zero]⟩

theorem dose_err (p : ℕ) (hp : 4 ≤ p) (c' c k : ℚ)
    (h : |c' - c| ≤ 5 * 2 ^ (-(p : ℤ)) * |c|) :
    |fl p (c' / fl p k) - c / k| ≤ 8 * 2 ^ (-(p : ℤ)) * |c / k| := by
  obtain ⟨u0, u1⟩ := unit_roundoff p hp
  have h3 := close_div c' c (fl p k) k _ _ (by positivity) (le_of_lt u0) (by linarith) h
    (fl_err p k)
  have h4 := close_fl p _ _ _ h3
  refine close_mono _ _ _ _ h4 ?_
  generalize (2 : ℚ) ^ (-(p : ℤ)) = u at *
  have hd : 0 < 1 - u := by linarith
  have hg : (5 * u + u) / (1 - u) * (1 + u) ≤ 7 * u := by
    rw [div_mul_eq_mul_div, div_le_iff₀ hd]
    nlinarith [mul_pos u0 u0]
  nlinarith

theorem kAlpha_double : fl 53 kAlpha = ((7463590482459754 : ℤ) : ℚ) * 2 ^ (-47 : ℤ) := by
  unfold kAlpha
  apply fl_eq <;> norm_num [abs_lt]

theorem kAlpha_single : fl 24 kAlpha = ((13902021 : ℤ) : ℚ) * 2 ^ (-18 : ℤ) := by
  unfold kAlpha
  apply fl_eq <;> norm_num [abs_lt]

theorem cpm_oneMinute (p : ℕ) (hp : 16 ≤ p) (s : State) (h1 : s._cpm = 53032)
    (h2 : s.cpmTimeSec = 60) : cpm p s = 53032 := by
  have h16 : (2 : ℤ) ^ 16 ≤ 2 ^ p := pow_le_pow_right₀ (by norm_num) hp
  have f1 : fl p (53032 : ℚ) = 53032 := by
    have := fl_int p 53032 (by rw [abs_of_pos (by norm_num)]; linarith)
    simpa using this
  rw [cpm_eq p (by omega) s (by omega), h1, h2]
  simp only [Int.cast_ofNat]
  rw [fl_sixty p (by omega), div_self (by norm_num), fl_one p (by omega), f1, div_one, f1]

theorem uSvh_oneMinute (s : State) (h1 : s._cpm = 53032) (h2 : s.cpmTimeSec = 60) :
    uSvh 53 s = 8796093022208001 / 8796093022208 ∧ uSvh 24 s = 1000 := by
  have c53 := cpm_oneMinute 53 (by norm_num) s h1 h2
  have c24 := cpm_oneMinute 24 (by norm_num) s h1 h2
  constructor
  · have e := fl_eq 53 (53032 / (((7463590482459754 : ℤ) : ℚ) * 2 ^ (-47 : ℤ))) (-43)
      8796093022208001 (by norm_num) (by norm_num) (by norm_num [abs_lt])
    simp only [uSvh, c53, kAlpha_double]
    rw [e]
    norm_num
  · have e := fl_eq 24 (53032 / (((13902021 : ℤ) : ℚ) * 2 ^ (-18 : ℤ))) (-14)
      16384000 (by norm_num) (by norm_num) (by norm_num [abs_lt])
    simp only [uSvh, c24, kAlpha_single]
    rw [e]
    norm_num

theorem cpm_fifty (s : State) (h1 : s._cpm = 50) (h2 : s.cpmTimeSec = 1) :
    cpm 53 s = 3000 ∧ cpm 24 s = 12287999 / 4096 := by
  constructor
  · have f1 : fl 53 (50 : ℚ) = 50 := by
      have := fl_int 53 50 (by norm_num)
      simpa using this
    have f2 : fl 53 ((1 : ℚ) / 60) = ((4803839602528529 : ℤ) : ℚ) * 2 ^ (-58 : ℤ) := by
      apply fl_eq <;> norm_num [abs_lt]
    have e := fl_eq 53 (50 / (((4803839602528529 : ℤ) : ℚ) * 2 ^ (-58 : ℤ))) (-41)
      6597069766656000 (by norm_num) (by norm_num) (by norm_num [abs_lt])
    rw [cpm_eq 53 (by norm_num) s (by omega), h1, h2]
    simp only [Int.cast_ofNat, Int.cast_one]
    rw [fl_one 53 (by norm_num), f1, f2, e]
    norm_num
  · have f1 : fl 24 (50 : ℚ) = 50 := by
      have := fl_int 24 50 (by norm_num)
      simpa using this
    have f2 : fl 24 ((1 : ℚ) / 60) = ((8947849 : ℤ) : ℚ) * 2 ^ (-29 : ℤ) := by
      apply fl_eq <;> norm_num [abs_lt]
    have e := fl_eq 24 (50 / (((8947849 : ℤ) : ℚ) * 2 ^ (-29 : ℤ))) (-12)
      12287999 (by norm_num) (by norm_num) (by norm_num [abs_lt])
    rw [cpm_eq 24 (by norm_num) s (by omega), h1, h2]
    simp only [Int.cast_ofNat, Int.cast_one]
    rw [fl_one 24 (by norm_num), f1, f2, e]
    norm_num

theorem cpm_eleven (s : State) (h1 : s._cpm = 11) (h2 : s.cpmTimeSec = 11) :
    cpm 53 s = 8444249301319681 / 140737488355328 := by
  have f1 : fl 53 (11 : ℚ) = 11 := by
    have := fl_int 53 11 (by norm_num)
    simpa using this
  have f2 : fl 53 ((11 : ℚ) / 60) = ((6605279453476727 : ℤ) : ℚ) * 2 ^ (-55 : ℤ) := by
    apply fl_eq <;> norm_num [abs_lt]
  have e := fl_eq 53 (11 / (((6605279453476727 : ℤ) : ℚ) * 2 ^ (-55 : ℤ))) (-47)
    8444249301319681 (by norm_num) (by norm_num) (by norm_num [abs_lt])
  rw [cpm_eq 53 (by norm_num) s (by omega), h1, h2]
  simp only [Int.cast_ofNat]
  rw [f1, f2, e]
  norm_num

theorem minutes_err (p : ℕ) (hp : 4 ≤ p) (t : ℚ) :
    |fl p (fl p t / 60) - t / 60| ≤ 3 * 2 ^ (-(p : ℤ)) * |t / 60| := by
  obtain ⟨u0, u1⟩ := unit_roundoff p hp
  have h1 : |fl p t / 60 - t / 60| ≤ (2 ^ (-(p : ℤ)) + 0) / (1 - 0) * |t / 60| :=
    close_div (fl p t) t 60 60 _ 0 (le_of_lt u0) (le_refl 0) (by norm_num) (fl_err p t)
      (by simp)
  rw [add_zero, sub_zero, div_one] at h1
  have h2 := close_fl p _ _ _ h1
  refine close_mono _ _ _ _ h2 ?_
  nlinarith

theorem close_bounds (v x ε : ℚ) (h : |v - x| ≤ ε * |x|) :
    (1 - ε) * |x| ≤ |v| ∧ |v| ≤ (1 + ε) * |x| := by
  have h1 := abs_sub_abs_le_abs_sub x v
  have h2 := abs_sub_abs_le_abs_sub v x
  rw [abs_sub_comm x v] at h1
  constructor <;> linarith

/-- For non-zero `_cpm` and positive `cpmTimeSec` that fit a 32-bit `int`, the values
that `cpmTime()`, `cpm()` and `uSvh()` compute lie between `2^-126` and `2^127` in
magnitude, the normal range of binary32 (and of binary64): rounding with an
unbounded exponent is what the machine does there. -/
theorem dose_in_range (p : ℕ) (hp : 4 ≤ p) (s : State) (ha : s._cpm ≠ 0)
    (ha2 : |s._cpm| < 2 ^ 31) (ht : 0 < s.cpmTimeSec) (ht2 : s.cpmTimeSec < 2 ^ 31) :
    ((2 : ℚ) ^ (-126 : ℤ) ≤ |cpmTimeFl p s| ∧ |cpmTimeFl p s| ≤ 2 ^ (127 : ℤ)) ∧
    ((2 : ℚ) ^ (-126 : ℤ) ≤ |cpm p s| ∧ |cpm p s| ≤ 2 ^ (127 : ℤ)) ∧
    ((2 : ℚ) ^ (-126 : ℤ) ≤ |uSvh p s| ∧ |uSvh p s| ≤ 2 ^ (127 : ℤ)) := by
  obtain ⟨u0, u1⟩ := unit_roundoff p hp
  have a1 : (1 : ℚ) ≤ |(s._cpm : ℚ)| := by
    have : (1 : ℤ) ≤ |s._cpm| := Int.one_le_abs ha
    exact_mod_cast this
  have a2 : |(s._cpm : ℚ)| < 2 ^ 31 := by exact_mod_cast ha2
  have t1 : (1 : ℚ) ≤ (s.cpmTimeSec : ℚ) := by exact_mod_cast ht
  have t2 : (s.cpmTimeSec : ℚ) < 2 ^ 31 := by exact_mod_cast ht2
  have tp : (0 : ℚ) < (s.cpmTimeSec : ℚ) := by linarith
  have x1 : |(s.cpmTimeSec : ℚ) / 60| = (s.cpmTimeSec : ℚ) / 60 := abs_of_pos (by positivity)
  have x2 : |60 * (s._cpm : ℚ) / (s.cpmTimeSec : ℚ)| =
      60 * |(s._cpm : ℚ)| / (s.cpmTimeSec : ℚ) := by
    rw [abs_div, abs_mul, abs_of_pos tp, abs_of_pos (by norm_num : (0 : ℚ) < 60)]
  have x3 : |60 * (s._cpm : ℚ) / (s.cpmTimeSec : ℚ) / 53.032| =
      60 * |(s._cpm : ℚ)| / (s.cpmTimeSec : ℚ) / 53.032 := by
    rw [abs_div, x2, abs_of_pos (by norm_num : (0 : ℚ) < 53.032)]
  have q1 : (60 : ℚ) / 2 ^ 31 ≤ 60 * |(s._cpm : ℚ)| / (s.cpmTimeSec : ℚ) := by
    rw [div_le_div_iff₀ (by positivity) tp]
    nlinarith
  have q2 : 60 * |(s._cpm : ℚ)| / (s.cpmTimeSec : ℚ) ≤ 60 * 2 ^ 31 := by
    rw [div_le_iff₀ tp]
    nlinarith
  have d1 := minutes_err p hp (s.cpmTimeSec : ℚ)
  have d2 : |cpm p s - 60 * (s._cpm : ℚ) / (s.cpmTimeSec : ℚ)| ≤
      5 * 2 ^ (-(p : ℤ)) * |60 * (s._cpm : ℚ) / (s.cpmTimeSec : ℚ)| := by
    rw [cpm_eq p hp s (by omega)]
    exact quotient_err p hp _ _
  have d3 : |uSvh p s - 60 * (s._cpm : ℚ) / (s.cpmTimeSec : ℚ) / 53.032| ≤
      8 * 2 ^ (-(p : ℤ)) * |60 * (s._cpm : ℚ) / (s.cpmTimeSec : ℚ) / 53.032| := by
    simp only [uSvh, kAlpha]
    exact dose_err p hp _ _ _ d2
  rw [← cpmTimeFl_eq p hp s] at d1
  obtain ⟨l1, r1⟩ := close_bounds _ _ _ d1
  obtain ⟨l2, r2⟩ := close_bounds _ _ _ d2
  obtain ⟨l3, r3⟩ := close_bounds _ _ _ d3
  rw [x1] at l1 r1
  rw [x2] at l2 r2
  rw [x3] at l3 r3
  have q3 : (60 : ℚ) / 2 ^ 31 / 53.032 ≤
      60 * |(s._cpm : ℚ)| / (s.cpmTimeSec : ℚ) / 53.032 :=
    div_le_div_of_nonneg_right q1 (by norm_num)
  have q4 : 60 * |(s._cpm : ℚ)| / (s.cpmTimeSec : ℚ) / 53.032 ≤ 60 * 2 ^ 31 / 53.032 :=
    div_le_div_of_nonneg_right q2 (by norm_num)
  have s1 : (1 : ℚ) / 60 ≤ (s.cpmTimeSec : ℚ) / 60 := div_le_div_of_nonneg_right t1 (by norm_num)
  have s2 : (s.cpmTimeSec : ℚ) / 60 ≤ 2 ^ 31 / 60 :=
    div_le_div_of_nonneg_right (le_of_lt t2) (by norm_num)
  have k1 : (2 : ℚ) ^ (-126 : ℤ) ≤ 1 / 2 ^ 40 := by norm_num
  have k2 : (2 : ℚ) ^ 40 ≤ 2 ^ (127 : ℤ) := by norm_num
  refine ⟨⟨?_, ?_⟩, ⟨?_, ?_⟩, ⟨?_, ?_⟩⟩
  · refine le_trans k1 (le_trans ?_ l1)
    have : (1 / 2 : ℚ) * (1 / 60) ≤ (1 - 3 * 2 ^ (-(p : ℤ))) * ((s.cpmTimeSec : ℚ) / 60) :=
      mul_le_mul (by linarith) s1 (by norm_num) (by linarith)
    refine le_trans ?_ this
    norm_num
  · refine le_trans r1 (le_trans ?_ k2)
    have : (1 + 3 * 2 ^ (-(p : ℤ))) * ((s.cpmTimeSec : ℚ) / 60) ≤ 2 * (2 ^ 31 / 60) :=
      mul_le_mul (by linarith) s2 (by positivity) (by norm_num)
    refine le_trans this ?_
    norm_num
  · refine le_trans k1 (le_trans ?_ l2)
    have : (1 / 2 : ℚ) * (60 / 2 ^ 31) ≤
        (1 - 5 * 2 ^ (-(p : ℤ))) * (60 * |(s._cpm : ℚ)| / (s.cpmTimeSec : ℚ)) :=
      mul_le_mul (by linarith) q1 (by norm_num) (by linarith)
    refine le_trans ?_ this
    norm_num
  · refine le_trans r2 (le_trans ?_ k2)
    have : (1 + 5 * 2 ^ (-(p : ℤ))) * (60 * |(s._cpm : ℚ)| / (s.cpmTimeSec : ℚ)) ≤
        2 * (60 * 2 ^ 31) :=
      mul_le_mul (by linarith) q2 (by positivity) (by norm_num)
    refine le_trans this ?_
    norm_num
  · refine le_trans k1 (le_trans ?_ l3)
    have : (1 / 2 : ℚ) * (60 / 2 ^ 31 / 53.032) ≤
        (1 - 8 * 2 ^ (-(p : ℤ))) * (60 * |(s._cpm : ℚ)| / (s.cpmTimeSec : ℚ) / 53.032) :=
      mul_le_mul (by linarith) q3 (by norm_num) (by linarith)
    refine le_trans ?_ this
    norm_num
  · refine le_trans r3 (le_trans ?_ k2)
    have : (1 + 8 * 2 ^ (-(p : ℤ))) * (60 * |(s._cpm : ℚ)| / (s.cpmTimeSec : ℚ) / 53.032) ≤
        2 * (60 * 2 ^ 31 / 53.032) :=
      mul_le_mul (by linarith) q4 (by positivity) (by norm_num)
    refine le_trans this ?_
    norm_num

/-- Claim C5 (dose formula, amended): with a `double` of `p >= 4` significant bits
(53 for binary64, 24 for binary32) and `cpmTimeSec > 0`, `cpm()` is the rounded
quotient of `_cpm` by the rounded `cpmTimeSec / 60.0` and lies within a relative
error of `5 * 2^-p` of `60 * _cpm / cpmTimeSec`; `uSvh()` is the rounded quotient of
`cpm()` by the `double` nearest to 53.032 and lies within a relative error of
`3 * 2^-p` of `cpm() / 53.032` and of `8 * 2^-p` of `60 * _cpm / cpmTimeSec / 53.032`.
For `cpmTimeSec == 0` both are 0.  For `_cpm = 53032`, `cpmTimeSec = 60`: `cpm()` is
53032 exactly (`p >= 16`), `uSvh()` is `1000 + 2^-43` in binary64 and 1000 in
binary32. -/
theorem dose_formula (p : ℕ) (hp : 4 ≤ p) (s : State) :
    (0 < s.cpmTimeSec →
      cpm p s = fl p (fl p (s._cpm : ℚ) / fl p (fl p (s.cpmTimeSec : ℚ) / 60)) ∧
      |cpm p s - 60 * (s._cpm : ℚ) / (s.cpmTimeSec : ℚ)| ≤
        5 * 2 ^ (-(p : ℤ)) * |60 * (s._cpm : ℚ) / (s.cpmTimeSec : ℚ)| ∧
      uSvh p s = fl p (cpm p s / fl p 53.032) ∧
      |uSvh p s - cpm p s / 53.032| ≤ 3 * 2 ^ (-(p : ℤ)) * |cpm p s / 53.032| ∧
      |uSvh p s - 60 * (s._cpm : ℚ) / (s.cpmTimeSec : ℚ) / 53.032| ≤
        8 * 2 ^ (-(p : ℤ)) * |60 * (s._cpm : ℚ) / (s.cpmTimeSec : ℚ) / 53.032|) ∧
    (s.cpmTimeSec = 0 → cpm p s = 0 ∧ uSvh p s = 0) ∧
    (s._cpm = 53032 → s.cpmTimeSec = 60 →
      (16 ≤ p → cpm p s = 53032) ∧
      uSvh 53 s = 8796093022208001 / 8796093022208 ∧
      uSvh 53 s = 1000 + 2 ^ (-43 : ℤ) ∧
      uSvh 24 s = 1000) := by
  refine ⟨fun h => ?_, cpm_zero p hp s, fun h1 h2 => ?_⟩
  · have e := cpm_eq p hp s (by omega)
    have q : |cpm p s - 60 * (s._cpm : ℚ) / (s.cpmTimeSec : ℚ)| ≤
        5 * 2 ^ (-(p : ℤ)) * |60 * (s._cpm : ℚ) / (s.cpmTimeSec : ℚ)| := by
      rw [e]
      exact quotient_err p hp _ _
    refine ⟨e, q, by simp only [uSvh, kAlpha], ?_, ?_⟩
    · simp only [uSvh, kAlpha]
      exact scaled_err p hp _ _
    · simp only [uSvh, kAlpha]
      exact dose_err p hp _ _ _ q
  · obtain ⟨u1, u2⟩ := uSvh_oneMinute s h1 h2
    refine ⟨fun h16 => cpm_oneMinute p h16 s h1 h2, u1, ?_, u2⟩
    rw [u1]
    norm_num

/-- Witness for C5: the state `oneMinute` (`_cpm = 53032`, `cpmTimeSec = 60`) in
binary64: `cpm()` is 53032 and `uSvh()` is `1000 + 2^-43`, which prints as
1000.0000000000001. -/
theorem dose_formula_witness :
    4 ≤ 53 ∧ oneMinute._cpm = 53032 ∧ oneMinute.cpmTimeSec = 60 ∧
    cpm 53 oneMinute = 53032 ∧ uSvh 53 oneMinute = 1000 + 2 ^ (-43 : ℤ) :=
  have h := (dose_formula 53 (by decide) oneMinute).2.2 rfl rfl
  ⟨by decide, rfl, rfl, h.1 (by decide), h.2.2.1⟩

/-- Counterexample to C5 as stated, in binary64.  The claim's own witness
`_cpm = 53032`, `cpmTimeSec = 60` gives `uSvh() = 1000 + 2^-43`, not 1000; and
`_cpm = 11`, `cpmTimeSec = 11` gives `cpm() = 60 + 2^-47`, not `60 * 11 / 11`. -/
theorem dose_formula_counterexample :
    oneMinute._cpm = 53032 ∧ oneMinute.cpmTimeSec = 60 ∧
    uSvh 53 oneMinute = 8796093022208001 / 8796093022208 ∧ uSvh 53 oneMinute ≠ 1000 ∧
    elevenCounts._cpm = 11 ∧ elevenCounts.cpmTimeSec = 11 ∧
    cpm 53 elevenCounts = 8444249301319681 / 140737488355328 ∧
    cpm 53 elevenCounts ≠ 60 * (elevenCounts._cpm : ℚ) / (elevenCounts.cpmTimeSec : ℚ) := by
  have u := (uSvh_oneMinute oneMinute rfl rfl).1
  have c := cpm_eleven elevenCounts rfl rfl
  refine ⟨rfl, rfl, u, ?_, rfl, rfl, c, ?_⟩
  · rw [u]; norm_num
  · rw [c]
    simp only [elevenCounts]
    norm_num

theorem addTime_time (t : Int) (s : State) :
    (addTime t s).cpmTimeMSec =
      (if s.cpmTimeMSec + abs (t - s._prevTime) ≥ 1000
        then s.cpmTimeMSec + abs (t - s._prevTime) - 1000
        else s.cpmTimeMSec + abs (t - s._prevTime)) ∧
    (addTime t s).cpmTimeSec =
      (if s.cpmTimeMSec + abs (t - s._prevTime) ≥ 1000
        then (if s.cpmTimeSec ≥ 1200 then 1200 else s.cpmTimeSec + 1) else s.cpmTimeSec) ∧
    (addTime t s).totalSec =
      (if s.cpmTimeMSec + abs (t - s._prevTime) ≥ 1000
        then (if s.totalSec + 1 ≥ 3600 then s.totalSec + 1 - 3600 else s.totalSec + 1)
        else s.totalSec) ∧
    (addTime t s).totalHour =
      (if s.cpmTimeMSec + abs (t - s._prevTime) ≥ 1000
        then (if s.totalSec + 1 ≥ 3600 then s.totalHour + 1 else s.totalHour)
        else s.totalHour) := by
  by_cases h : s.cpmTimeMSec + abs (t - s._prevTime) ≥ 1000
  · have h1 := secondTick_time { s with cpmTimeMSec := s.cpmTimeMSec + abs (t - s._prevTime) }
    simp only [addTime, if_pos h]
    exact h1
  · simp only [addTime, if_neg h, and_self]

theorem cleanBatch_time (t : Int) (s : State) :
    (cleanBatch t s).cpmTimeMSec =
      (if s.cpmTimeMSec + abs (t - s._prevTime) ≥ 1000
        then s.cpmTimeMSec + abs (t - s._prevTime) - 1000
        else s.cpmTimeMSec + abs (t - s._prevTime)) ∧
    (cleanBatch t s).cpmTimeSec =
      (if s.cpmTimeMSec + abs (t - s._prevTime) ≥ 1000
        then (if s.cpmTimeSec ≥ 1200 then 1200 else s.cpmTimeSec + 1) else s.cpmTimeSec) ∧
    (cleanBatch t s).totalSec =
      (if s.cpmTimeMSec + abs (t - s._prevTime) ≥ 1000
        then (if s.totalSec + 1 ≥ 3600 then s.totalSec + 1 - 3600 else s.totalSec + 1)
        else s.totalSec) ∧
    (cleanBatch t s).totalHour =
      (if s.cpmTimeMSec + abs (t - s._prevTime) ≥ 1000
        then (if s.totalSec + 1 ≥ 3600 then s.totalHour + 1 else s.totalHour)
        else s.totalHour) := by
  obtain ⟨a1, a2, a3, a4, a5, -⟩ := shiftHistory_time s
  obtain ⟨b1, b2, b3, b4, b5, -⟩ := storeCount_time (shiftHistory s)
  have h := addTime_time t (storeCount (shiftHistory s))
  rw [b1, b2, b3, b4, b5, a1, a2, a3, a4, a5] at h
  simp only [cleanBatch, printStatus]
  exact h

theorem cleanBatch_driver (t : Int) (s : State) :
    (cleanBatch t s).nON = s.nON ∧ (cleanBatch t s).printed = s.printed + 1 ∧
    (cleanBatch t s).index = 0 := by
  obtain ⟨-, -, -, -, -, -, -, a8, -, a10⟩ := shiftHistory_time s
  obtain ⟨-, -, -, -, -, -, -, b8, -, b10, -⟩ := storeCount_time (shiftHistory s)
  obtain ⟨-, -, -, -, -, -, c7, -, -, c10⟩ := addTime_frame t (storeCount (shiftHistory s))
  simp only [cleanBatch, printStatus]
  exact ⟨by rw [c7, b8, a8], by rw [c10, b10, a10], trivial⟩

theorem cleanBatch_count (t : Int) (s : State) :
    (cleanBatch t s)._cpm = (storeCount (shiftHistory s))._cpm ∧
    (cleanBatch t s)._cpmHistory = (storeCount (shiftHistory s))._cpmHistory ∧
    (cleanBatch t s).cpmIndex = (shiftHistory s).cpmIndex ∧
    (cleanBatch t s).cpmIndexPrev = (shiftHistory s).cpmIndexPrev := by
  obtain ⟨c1, c2, c3, c4, -⟩ := addTime_frame t (storeCount (shiftHistory s))
  obtain ⟨-, -, -, -, -, -, -, -, -, -, b11, b12⟩ := storeCount_time (shiftHistory s)
  simp only [cleanBatch, printStatus]
  exact ⟨c1, c2, by rw [c3, b11], by rw [c4, b12]⟩

theorem loop_evaluating (noise t : Int) (s : State) (hidx : s.index = 10000)
    (hclean : (pollNoise noise s).noiseCount = 0) :
    loop noise t s =
      { cleanBatch t (pollNoise noise s) with
        _prevTime := t, signCount := 0, noiseCount := 0, index := 1 } := by
  have h1 : (pollNoise noise s).index = 10000 := by rw [(pollNoise_frame noise s).1, hidx]
  have h2 := (cleanBatch_driver t (pollNoise noise s)).2.2
  simp only [loop, evaluate, h1, if_true, hclean, h2, zero_add]

theorem pollNoise_low (s : State) (h : s.nON = 0) : pollNoise 0 s = s := by
  simp [pollNoise, h]

theorem pulses_iterate (p : Nat) (s : State) :
    triggerRadiationPulse^[p] s = { s with signCount := s.signCount + p } := by
  induction p generalizing s with
  | zero => simp
  | succ p ih =>
    rw [Function.iterate_succ_apply, ih]
    simp only [triggerRadiationPulse, Nat.cast_succ]
    congr 1
    ring

theorem idle_iterate (t : Int) (n : Nat) (s : State) (h : s.nON = 0)
    (hn : s.index + n ≤ 10000) :
    (loop 0 t)^[n] s = { s with index := s.index + n } := by
  induction n generalizing s with
  | zero => simp
  | succ n ih =>
    have h1 : loop 0 t s = { s with index := s.index + 1 } := by
      have : s.index ≠ 10000 := by push_cast at hn; omega
      simp only [loop, pollNoise_low s h, if_neg this]
    have h2 := ih { s with index := s.index + 1 } h (by push_cast at hn ⊢; omega)
    rw [Function.iterate_succ_apply, h1, h2]
    simp only [Nat.cast_succ]
    congr 1
    ring

theorem batch_eq_loop (p : Nat) (t : Int) (s : State) (h : s.nON = 0) (h0 : 0 ≤ s.index)
    (h1 : s.index ≤ 10000) :
    batch p t s = loop 0 t { s with signCount := s.signCount + p, index := 10000 } := by
  have h2 := idle_iterate t (10000 - s.index).toNat { s with signCount := s.signCount + p } h
    (by simp only []; omega)
  unfold batch
  rw [pulses_iterate, h2]
  congr 1
  simp only []
  congr 1
  omega

theorem batch_fields (p : Nat) (t : Int) (s : State) (h : Ready s) :
    Ready (batch p t s) ∧ (batch p t s)._prevTime = t ∧
    batch p t s =
      { cleanBatch t { s with signCount := p, index := 10000 } with
        _prevTime := t, signCount := 0, noiseCount := 0, index := 1 } := by
  obtain ⟨h1, h2, h3, h4, h5⟩ := h
  have e1 := batch_eq_loop p t s h1 h4 h5
  have e2 : pollNoise 0 { s with signCount := s.signCount + p, index := 10000 } =
      { s with signCount := p, index := 10000 } := by
    rw [pollNoise_low { s with signCount := s.signCount + p, index := 10000 } h1, h3, zero_add]
  have e3 := loop_evaluating 0 t { s with signCount := s.signCount + p, index := 10000 } rfl
    (by rw [e2]; exact h2)
  rw [e2] at e3
  rw [e1, e3]
  have d := cleanBatch_driver t { s with signCount := p, index := 10000 }
  refine ⟨⟨?_, rfl, rfl, by simp only []; omega, by simp only []; omega⟩, rfl, rfl⟩
  simp only [d.1]
  exact h1

theorem initial_ready (t : Int) : Ready (initial t) := by
  simp [Ready, initial, setup, constructor]

theorem shiftHistory_skip (s : State) (h : ¬ (s.totalSec.tmod 6 = 0 ∧ s.cpmIndexPrev ≠ s.totalSec)) :
    shiftHistory s = s := by
  simp only [shiftHistory, if_neg h]

theorem batch_time (p : Nat) (t : Int) (s : State) (h : Ready s) :
    (batch p t s).cpmTimeMSec =
      (if s.cpmTimeMSec + abs (t - s._prevTime) ≥ 1000
        then s.cpmTimeMSec + abs (t - s._prevTime) - 1000
        else s.cpmTimeMSec + abs (t - s._prevTime)) ∧
    (batch p t s).cpmTimeSec =
      (if s.cpmTimeMSec + abs (t - s._prevTime) ≥ 1000
        then (if s.cpmTimeSec ≥ 1200 then 1200 else s.cpmTimeSec + 1) else s.cpmTimeSec) ∧
    (batch p t s).totalSec =
      (if s.cpmTimeMSec + abs (t - s._prevTime) ≥ 1000
        then (if s.totalSec + 1 ≥ 3600 then s.totalSec + 1 - 3600 else s.totalSec + 1)
        else s.totalSec) ∧
    (batch p t s).totalHour =
      (if s.cpmTimeMSec + abs (t - s._prevTime) ≥ 1000
        then (if s.totalSec + 1 ≥ 3600 then s.totalHour + 1 else s.totalHour)
        else s.totalHour) := by
  obtain ⟨-, -, r3⟩ := batch_fields p t s h
  have c := cleanBatch_time t { s with signCount := p, index := 10000 }
  rw [r3]
  exact c

theorem seconds_step (k p : Nat) (t : Int) (s : State) (h : Seconds k s)
    (he : abs (t - s._prevTime) = 1000) : Seconds (k + 1) (batch p t s) := by
  obtain ⟨hr, h1, h2, h3, h4⟩ := h
  obtain ⟨r1, -, -⟩ := batch_fields p t s hr
  obtain ⟨c1, -, c3, c4⟩ := batch_time p t s hr
  rw [he, h1] at c1 c3 c4
  refine ⟨r1, ?_, ?_, ?_, ?_⟩
  · rw [c1]; norm_num
  · rw [c3, c4]; push_cast; split_ifs <;> omega
  · rw [c3]; split_ifs <;> omega
  · rw [c3]; split_ifs <;> omega

theorem seconds_run (bs : List (Nat × Int)) (k : Nat) (s : State) (h : Seconds k s)
    (he : spans 1000 s._prevTime bs) : Seconds (k + bs.length) (runBatches s bs) := by
  induction bs generalizing k s with
  | nil => exact h
  | cons b bs ih =>
    obtain ⟨he1, he2⟩ := he
    have h1 := seconds_step k b.1 b.2 s h he1
    have h2 := (batch_fields b.1 b.2 s h.1).2.1
    have h3 := ih (k + 1) (batch b.1 b.2 s) h1 (by rw [h2]; exact he2)
    have h4 : k + (b :: bs).length = k + 1 + bs.length := by simp only [List.length_cons]; omega
    rw [h4]
    exact h3

theorem initial_seconds (t : Int) : Seconds 0 (initial t) := by
  refine ⟨initial_ready t, ?_⟩
  simp [initial, setup, constructor]

theorem spans_ramp (e : Int) (p : Nat) (he : 0 ≤ e) (t : Int) (n : Nat) :
    spans e t (ramp e p t n) ∧ (ramp e p t n).length = n := by
  induction n generalizing t with
  | zero => exact ⟨trivial, rfl⟩
  | succ n ih =>
    have h := ih (t + e)
    refine ⟨⟨?_, h.1⟩, by simp only [ramp, List.length_cons, h.2]⟩
    simp only [abs]
    split_ifs <;> omega

theorem batch_count_skip (p : Nat) (t : Int) (s : State) (h : Ready s)
    (hc : ¬ (s.totalSec.tmod 6 = 0 ∧ s.cpmIndexPrev ≠ s.totalSec)) :
    (batch p t s)._cpm = s._cpm + p ∧ (batch p t s).cpmIndexPrev = s.cpmIndexPrev ∧
    (batch p t s).cpmIndex = s.cpmIndex ∧
    (batch p t s)._cpmHistory = s._cpmHistory.set s.cpmIndex.toNat (bin s + p) := by
  obtain ⟨-, -, r3⟩ := batch_fields p t s h
  obtain ⟨c1, c2, c3, c4⟩ := cleanBatch_count t { s with signCount := p, index := 10000 }
  rw [shiftHistory_skip { s with signCount := p, index := 10000 } hc] at c1 c2 c3 c4
  rw [r3]
  exact ⟨c1, c4, c3, c2⟩

theorem scenario_step (k : Nat) (t : Int) (s : State) (h : Scenario k s) (hk : k < 10)
    (he : abs (t - s._prevTime) = 150) : Scenario (k + 1) (batch 5 t s) := by
  obtain ⟨hr, h1, h2, h3, h4, h5, h6, h7⟩ := h
  obtain ⟨r1, -, -⟩ := batch_fields 5 t s hr
  obtain ⟨c1, c2, c3, -⟩ := batch_time 5 t s hr
  have hc : ¬ (s.totalSec.tmod 6 = 0 ∧ s.cpmIndexPrev ≠ s.totalSec) := by
    rw [Int.tmod_eq_emod h5 (by norm_num), h7]
    omega
  obtain ⟨d1, d2, -, -⟩ := batch_count_skip 5 t s hr hc
  rw [he] at c1 c2 c3
  refine ⟨r1, ?_, ?_, ?_, ?_, ?_, ?_, ?_⟩
  · rw [d1, h1]; push_cast; ring
  · rw [c1, c3]; push_cast; split_ifs <;> omega
  · rw [c1]; split_ifs <;> omega
  · rw [c1]; split_ifs <;> omega
  · rw [c3]; split_ifs <;> omega
  · rw [c2, c3]; split_ifs <;> omega
  · rw [d2, h7]

theorem scenario_run (bs : List (Nat × Int)) (k : Nat) (s : State) (h : Scenario k s)
    (hk : k + bs.length ≤ 10) (hp : ∀ b ∈ bs, b.1 = 5) (he : spans 150 s._prevTime bs) :
    Scenario (k + bs.length) (runBatches s bs) := by
  induction bs generalizing k s with
  | nil => exact h
  | cons b bs ih =>
    obtain ⟨he1, he2⟩ := he
    have hb : b.1 = 5 := hp b (List.mem_cons_self b bs)
    have hl : k + (b :: bs).length = k + 1 + bs.length := by
      simp only [List.length_cons]; omega
    have h1 := scenario_step k b.2 s h (by omega) he1
    have h2 := (batch_fields 5 b.2 s h.1).2.1
    have h3 := ih (k + 1) (batch 5 b.2 s) h1 (by omega)
      (fun c hc => hp c (List.mem_cons_of_mem b hc)) (by rw [h2]; exact he2)
    rw [hl]
    simp only [runBatches, List.foldl_cons, hb]
    exact h3

theorem initial_scenario (t : Int) : Scenario 0 (initial t) := by
  refine ⟨initial_ready t, ?_⟩
  simp [initial, setup, constructor]

/-- Claim C7 (hour wraparound): `totalSec` stays in 0..3599 in every reachable
state; a second-tick maps `(totalHour, totalSec)` to `(totalHour, totalSec + 1)`
when `totalSec < 3599` and to `(totalHour + 1, 0)` when `totalSec == 3599`; and
from the initial state 3600 clean batches spanning exactly 1000 ms each leave
`totalSec == 0` and `totalHour == 1`. -/
theorem hour_wraparound (millis : Int) :
    (∀ evs : List Event,
      0 ≤ (run (initial millis) evs).totalSec ∧ (run (initial millis) evs).totalSec ≤ 3599) ∧
    (∀ s : State, s.totalSec < 3599 →
      (secondTick s).totalHour = s.totalHour ∧ (secondTick s).totalSec = s.totalSec + 1) ∧
    (∀ s : State, s.totalSec = 3599 →
      (secondTick s).totalHour = s.totalHour + 1 ∧ (secondTick s).totalSec = 0) ∧
    (∀ bs : List (Nat × Int), bs.length = 3600 → spans 1000 millis bs →
      (runBatches (initial millis) bs).totalSec = 0 ∧
      (runBatches (initial millis) bs).totalHour = 1) := by
  refine ⟨?_, ?_, ?_, ?_⟩
  · intro evs
    have h := (run_timeInv evs _ (initial_timeInv millis)).1
    exact ⟨h.1, h.2.1⟩
  · intro s hs
    obtain ⟨-, -, a3, a4⟩ := secondTick_time s
    rw [a3, a4]
    split_ifs <;> omega
  · intro s hs
    obtain ⟨-, -, a3, a4⟩ := secondTick_time s
    rw [a3, a4]
    split_ifs <;> omega
  · intro bs hlen he
    have h := seconds_run bs 0 (initial millis) (initial_seconds millis) he
    obtain ⟨-, -, h2, h3, h4⟩ := h
    rw [hlen] at h2
    push_cast at h2
    omega

/-- Witness for C7: 3600 batches evaluated at the readings 1000, 2000, ... after
`setup()` at reading 0. -/
theorem hour_wraparound_witness :
    (ramp 1000 0 0 3600).length = 3600 ∧ spans 1000 0 (ramp 1000 0 0 3600) ∧
    (runBatches (initial 0) (ramp 1000 0 0 3600)).totalSec = 0 ∧
    (runBatches (initial 0) (ramp 1000 0 0 3600)).totalHour = 1 :=
  ⟨(spans_ramp 1000 0 (by decide) 0 3600).2, (spans_ramp 1000 0 (by decide) 0 3600).1,
    (hour_wraparound 0).2.2.2 (ramp 1000 0 0 3600) (spans_ramp 1000 0 (by decide) 0 3600).2
      (spans_ramp 1000 0 (by decide) 0 3600).1⟩

theorem ten_batches_counts (millis : Int) (bs : List (Nat × Int)) (hlen : bs.length = 10)
    (hp : ∀ b ∈ bs, b.1 = 5) (he : spans 150 millis bs) :
    (runBatches (initial millis) bs).cpmTimeSec = 1 ∧
    (runBatches (initial millis) bs)._cpm = 50 := by
  have h := scenario_run bs 0 (initial millis) (initial_scenario millis) (by omega) hp he
  obtain ⟨-, h1, h2, h3, h4, h5, h6, -⟩ := h
  rw [hlen] at h1 h2
  push_cast at h1 h2
  exact ⟨by omega, by omega⟩

/-- Claim C8 (scenario, amended): from the initial state, after 10 consecutive clean
batch evaluations, each with `signCount == 5` and elapsed time
`|currTime - _prevTime| == 150` ms, `cpmTimeSec == 1` and `_cpm == 50`; `cpm()` is
3000 where `double` is binary64, it is `12287999/4096 = 2999.999755859375` where
`double` is binary32 (the ATmega328), and with `p >= 4` significant bits it is
within `5 * 2^-p * 3000` of 3000. -/
theorem scenario_ten_batches (millis : Int) (bs : List (Nat × Int)) (hlen : bs.length = 10)
    (hp : ∀ b ∈ bs, b.1 = 5) (he : spans 150 millis bs) :
    (runBatches (initial millis) bs).cpmTimeSec = 1 ∧
    (runBatches (initial millis) bs)._cpm = 50 ∧
    cpm 53 (runBatches (initial millis) bs) = 3000 ∧
    cpm 24 (runBatches (initial millis) bs) = 12287999 / 4096 ∧
    (∀ p : ℕ, 4 ≤ p →
      |cpm p (runBatches (initial millis) bs) - 3000| ≤ 5 * 2 ^ (-(p : ℤ)) * 3000) := by
  obtain ⟨e1, e2⟩ := ten_batches_counts millis bs hlen hp he
  obtain ⟨c1, c2⟩ := cpm_fifty _ e2 e1
  refine ⟨e1, e2, c1, c2, fun p h4 => ?_⟩
  rw [cpm_eq p h4 _ (by omega), e1, e2]
  have q := quotient_err p h4 ((50 : ℤ) : ℚ) ((1 : ℤ) : ℚ)
  norm_num at q ⊢
  exact q

/-- Witness for C8: ten batches of 5 pulses evaluated at the readings 150, 300,
..., 1500 after `setup()` at reading 0. -/
theorem scenario_ten_batches_witness :
    (ramp 150 5 0 10).length = 10 ∧ (∀ b ∈ ramp 150 5 0 10, b.1 = 5) ∧
    spans 150 0 (ramp 150 5 0 10) ∧
    (runBatches (initial 0) (ramp 150 5 0 10)).cpmTimeSec = 1 ∧
    (runBatches (initial 0) (ramp 150 5 0 10))._cpm = 50 ∧
    cpm 53 (runBatches (initial 0) (ramp 150 5 0 10)) = 3000 :=
  have h := scenario_ten_batches 0 (ramp 150 5 0 10) (by decide) (by decide)
    (spans_ramp 150 5 (by decide) 0 10).1
  ⟨by decide, by decide, (spans_ramp 150 5 (by decide) 0 10).1, h.1, h.2.1, h.2.2.1⟩

/-- Counterexample to C8 as stated, where `double` is binary32 (the ATmega328): ten
batches of 5 pulses evaluated at the readings 150, 300, ..., 1500 after `setup()`
at reading 0 leave `cpmTimeSec == 1` and `_cpm == 50`, and `cpm()` returns
`12287999/4096 = 2999.999755859375`, not 3000. -/
theorem scenario_ten_batches_counterexample :
    (ramp 150 5 0 10).length = 10 ∧ (∀ b ∈ ramp 150 5 0 10, b.1 = 5) ∧
    spans 150 0 (ramp 150 5 0 10) ∧
    (runBatches (initial 0) (ramp 150 5 0 10)).cpmTimeSec = 1 ∧
    (runBatches (initial 0) (ramp 150 5 0 10))._cpm = 50 ∧
    cpm 24 (runBatches (initial 0) (ramp 150 5 0 10)) = 12287999 / 4096 ∧
    cpm 24 (runBatches (initial 0) (ramp 150 5 0 10)) ≠ 3000 := by
  obtain ⟨e1, e2⟩ := ten_batches_counts 0 (ramp 150 5 0 10) (by decide) (by decide)
    (spans_ramp 150 5 (by decide) 0 10).1
  have c := (cpm_fifty _ e2 e1).2
  refine ⟨by decide, by decide, (spans_ramp 150 5 (by decide) 0 10).1, e1, e2, c, ?_⟩
  rw [c]
  norm_num

/-! ## Reachable states -/

theorem reachable_initial (t : Int) : Reachable (initial t) := ⟨t, [], rfl⟩

theorem reachable_step (s : State) (e : Event) (h : Reachable s) : Reachable (step s e) := by
  obtain ⟨m, evs, rfl⟩ := h
  exact ⟨m, evs ++ [e], by simp [run, List.foldl_append]⟩

theorem reachable_loop (noise t : Int) (s : State) (h : Reachable s) :
    Reachable (loop noise t s) := reachable_step s (Event.loop noise t) h

theorem reachable_pulse (s : State) (h : Reachable s) : Reachable (triggerRadiationPulse s) :=
  reachable_step s Event.pulse h

theorem reachable_loops (noise t : Int) (n : Nat) (s : State) (h : Reachable s) :
    Reachable ((loop noise t)^[n] s) := by
  induction n with
  | zero => exact h
  | succ n ih =>
    rw [Function.iterate_succ_apply']
    exact reachable_loop noise t _ ih

theorem reachable_pulses (n : Nat) (s : State) (h : Reachable s) :
    Reachable (triggerRadiationPulse^[n] s) := by
  induction n with
  | zero => exact h
  | succ n ih =>
    rw [Function.iterate_succ_apply']
    exact reachable_pulse _ ih

theorem reachable_batch (p : Nat) (t : Int) (s : State) (h : Reachable s) :
    Reachable (batch p t s) :=
  reachable_loop 0 t _ (reachable_loops 0 t _ _ (reachable_pulses p s h))

theorem reachable_runBatches (bs : List (Nat × Int)) (s : State) (h : Reachable s) :
    Reachable (runBatches s bs) := by
  induction bs generalizing s with
  | nil => exact h
  | cons b bs ih => exact ih _ (reachable_batch b.1 b.2 s h)

theorem reachable_sumInv (s : State) (h : Reachable s) : SumInv s := by
  obtain ⟨m, evs, rfl⟩ := h
  exact run_sumInv evs _ (initial_sumInv m)

theorem runBatches_ready (bs : List (Nat × Int)) (s : State) (h : Ready s) :
    Ready (runBatches s bs) ∧
    runBatches s bs = bs.foldl
      (fun s b => loop 0 b.2 { s with signCount := s.signCount + b.1, index := 10000 }) s := by
  induction bs generalizing s with
  | nil => exact ⟨h, rfl⟩
  | cons b bs ih =>
    have h1 := (batch_fields b.1 b.2 s h).1
    have h2 := batch_eq_loop b.1 b.2 s h.1 h.2.2.2.1 h.2.2.2.2
    have h3 := ih (batch b.1 b.2 s) h1
    refine ⟨h3.1, ?_⟩
    simp only [runBatches, List.foldl_cons] at h3 ⊢
    rw [h3.2, h2]

theorem afterSeconds_fast (n : Nat) :
    afterSeconds n = (ramp 1000 1 0 n).foldl
      (fun s b => loop 0 b.2 { s with signCount := s.signCount + b.1, index := 10000 })
      (initial 0) :=
  (runBatches_ready _ _ (initial_ready 0)).2

theorem afterSeconds_succ_five : afterSeconds 6 = batch 1 6000 (afterSeconds 5) := by
  simp [afterSeconds, runBatches, ramp]

theorem batch_prefix (p n : Nat) (t : Int) (s : State) (h1 : s.nON = 0)
    (h2 : s.index + n = 10000) (h3 : s.signCount = 0) :
    (loop 0 t)^[n] (triggerRadiationPulse^[p] s) =
      { s with signCount := p, index := 10000 } := by
  have h4 := idle_iterate t n { s with signCount := s.signCount + p } h1 (le_of_eq h2)
  rw [pulses_iterate, h4]
  simp only [h2, h3, zero_add]

theorem atBoundary_eq :
    atBoundary = { afterSeconds 6 with signCount := 3, index := 10000 } := by
  have h : (afterSeconds 6).nON = 0 ∧ (afterSeconds 6).index + (9999 : Nat) = 10000 ∧
      (afterSeconds 6).signCount = 0 := by
    rw [afterSeconds_fast]
    decide
  exact batch_prefix 3 9999 7000 (afterSeconds 6) h.1 h.2.1 h.2.2

theorem getD_set_eq (l : List Int) (i : Nat) (v : Int) (h : i < l.length) :
    (l.set i v).getD i 0 = v := by
  simp [List.getD_eq_getElem?_getD, List.getElem?_set, h]

theorem getD_set_ne (l : List Int) (i j : Nat) (v : Int) (h : j ≠ i) :
    (l.set i v).getD j 0 = l.getD j 0 := by
  simp [List.getD_eq_getElem?_getD, List.getElem?_set, Ne.symm h]

theorem pollNoise_shape (noise : Int) (s : State) :
    ∃ a b, pollNoise noise s = { s with nON := a, noiseCount := b } := by
  unfold pollNoise
  split_ifs
  · exact ⟨1, s.noiseCount + 1, rfl⟩
  · exact ⟨0, s.noiseCount, rfl⟩
  · exact ⟨s.nON, s.noiseCount, rfl⟩

theorem loop_clean_time (noise t : Int) (s : State) (hidx : s.index = 10000)
    (hclean : (pollNoise noise s).noiseCount = 0) :
    (loop noise t s).cpmTimeMSec =
      (if s.cpmTimeMSec + abs (t - s._prevTime) ≥ 1000
        then s.cpmTimeMSec + abs (t - s._prevTime) - 1000
        else s.cpmTimeMSec + abs (t - s._prevTime)) ∧
    (loop noise t s).totalSec =
      (if s.cpmTimeMSec + abs (t - s._prevTime) ≥ 1000
        then (if s.totalSec + 1 ≥ 3600 then s.totalSec + 1 - 3600 else s.totalSec + 1)
        else s.totalSec) ∧
    (loop noise t s).totalHour =
      (if s.cpmTimeMSec + abs (t - s._prevTime) ≥ 1000
        then (if s.totalSec + 1 ≥ 3600 then s.totalHour + 1 else s.totalHour)
        else s.totalHour) := by
  obtain ⟨-, -, p3, -, -, -, -, p8, p9, p10, -, -⟩ := pollNoise_frame noise s
  obtain ⟨c1, -, c3, c4⟩ := cleanBatch_time t (pollNoise noise s)
  simp only [p3, p8, p9, p10] at c1 c3 c4
  rw [loop_evaluating noise t s hidx hclean]
  exact ⟨c1, c3, c4⟩

theorem loop_clean_count (noise t : Int) (s : State) (hidx : s.index = 10000)
    (hclean : (pollNoise noise s).noiseCount = 0) :
    ∃ a b,
      (loop noise t s)._cpmHistory =
        (storeCount (shiftHistory { s with nON := a, noiseCount := b }))._cpmHistory ∧
      (loop noise t s).cpmIndex = (shiftHistory { s with nON := a, noiseCount := b }).cpmIndex ∧
      (loop noise t s).cpmIndexPrev =
        (shiftHistory { s with nON := a, noiseCount := b }).cpmIndexPrev := by
  obtain ⟨a, b, hp⟩ := pollNoise_shape noise s
  obtain ⟨-, c2, c3, c4⟩ := cleanBatch_count t (pollNoise noise s)
  rw [hp] at c2 c3 c4
  refine ⟨a, b, ?_⟩
  rw [loop_evaluating noise t s hidx hclean, hp]
  exact ⟨c2, c3, c4⟩

theorem shiftBody_fields (s : State) :
    (shiftBody s).cpmIndex =
      (if s.cpmIndex + 1 ≥ kHistoryCount then 0 else s.cpmIndex + 1) ∧
    (shiftBody s).cpmIndexPrev = s.totalSec ∧
    (shiftBody s)._cpmHistory = s._cpmHistory.set
      (if s.cpmIndex + 1 ≥ (kHistoryCount : Int) then (0 : Int) else s.cpmIndex + 1).toNat 0 ∧
    (shiftBody s).signCount = s.signCount := by
  simp only [shiftBody]
  split_ifs <;> simp

theorem storeCount_hist (s : State) :
    (storeCount s)._cpmHistory = s._cpmHistory.set s.cpmIndex.toNat
      (s._cpmHistory.getD s.cpmIndex.toNat 0 + s.signCount) := by
  simp only [storeCount, bin]

/-- Claim C10, as the code has it (bin-advance ordering): the bin advance is
decided on the value `totalSec` has when a clean batch evaluation starts, before
that evaluation's own second-tick.  When `totalSec` is then a multiple of 6 not yet
used for a bin advance, `cpmIndex` moves by one (modulo `kHistoryCount`) before the
pulse count is folded in: `signCount` lands in the new current bin, which then
holds exactly `signCount`, and every other bin is untouched.  Otherwise `cpmIndex`
stays and `signCount` is added to the current bin, also when this evaluation's own
second-tick brings `totalSec` to a multiple of 6. -/
theorem bin_advance_ordering (s : State) (noise t : Int) (hidx : s.index = 10000)
    (hclean : (pollNoise noise s).noiseCount = 0)
    (hlen : s._cpmHistory.length = kHistoryCount) (h0 : 0 ≤ s.cpmIndex)
    (h1 : s.cpmIndex < kHistoryCount) :
    (s.totalSec.tmod 6 = 0 ∧ s.cpmIndexPrev ≠ s.totalSec →
      (loop noise t s).cpmIndex = (s.cpmIndex + 1) % kHistoryCount ∧
      (loop noise t s).cpmIndexPrev = s.totalSec ∧
      (loop noise t s)._cpmHistory.getD (loop noise t s).cpmIndex.toNat 0 = s.signCount ∧
      (∀ j, j ≠ (loop noise t s).cpmIndex.toNat →
        (loop noise t s)._cpmHistory.getD j 0 = s._cpmHistory.getD j 0)) ∧
    (¬ (s.totalSec.tmod 6 = 0 ∧ s.cpmIndexPrev ≠ s.totalSec) →
      (loop noise t s).cpmIndex = s.cpmIndex ∧
      (loop noise t s).cpmIndexPrev = s.cpmIndexPrev ∧
      (loop noise t s)._cpmHistory.getD s.cpmIndex.toNat 0 =
        s._cpmHistory.getD s.cpmIndex.toNat 0 + s.signCount ∧
      (∀ j, j ≠ s.cpmIndex.toNat →
        (loop noise t s)._cpmHistory.getD j 0 = s._cpmHistory.getD j 0)) := by
  obtain ⟨a, b, e1, e2, e3⟩ := loop_clean_count noise t s hidx hclean
  simp only [kHistoryCount] at hlen h1 ⊢
  push_cast at h1 ⊢
  constructor
  · intro hc
    have hs : shiftHistory { s with nON := a, noiseCount := b } =
        shiftBody { s with nON := a, noiseCount := b } := by
      simp only [shiftHistory, if_pos hc]
    obtain ⟨f1, f2, f3, f4⟩ := shiftBody_fields { s with nON := a, noiseCount := b }
    have g := storeCount_hist (shiftBody { s with nON := a, noiseCount := b })
    rw [hs] at e1 e2 e3
    rw [f1, f3, f4] at g
    simp only [kHistoryCount] at f1 g
    push_cast at f1 g
    rw [f1] at e2
    rw [f2] at e3
    rw [g] at e1
    have hi : (if s.cpmIndex + 1 ≥ 200 then (0 : Int) else s.cpmIndex + 1) =
        (s.cpmIndex + 1) % 200 := by
      split_ifs <;> omega
    rw [hi] at e1 e2
    have hl : ((s.cpmIndex + 1) % 200).toNat < s._cpmHistory.length := by omega
    rw [e2, e3, e1]
    refine ⟨rfl, rfl, ?_, ?_⟩
    · rw [getD_set_eq _ _ _ (by simp only [List.length_set]; exact hl),
        getD_set_eq _ _ _ hl]
      ring
    · intro j hj
      rw [getD_set_ne _ _ _ _ hj, getD_set_ne _ _ _ _ hj]
  · intro hc
    have hs : shiftHistory { s with nON := a, noiseCount := b } =
        { s with nON := a, noiseCount := b } := by
      simp only [shiftHistory, if_neg hc]
    have g := storeCount_hist { s with nON := a, noiseCount := b }
    rw [hs] at e1 e2 e3
    rw [g] at e1
    dsimp only at e1
    rw [e2, e3, e1]
    refine ⟨rfl, rfl, ?_, ?_⟩
    · rw [getD_set_eq _ _ _ (by omega)]
    · intro j hj
      rw [getD_set_ne _ _ _ _ hj]

set_option maxRecDepth 20000 in
theorem atBoundary_facts :
    atBoundary.index = 10000 ∧ (pollNoise 0 atBoundary).noiseCount = 0 ∧
    atBoundary._cpmHistory.length = kHistoryCount ∧ 0 ≤ atBoundary.cpmIndex ∧
    atBoundary.cpmIndex < kHistoryCount ∧
    (atBoundary.totalSec.tmod 6 = 0 ∧ atBoundary.cpmIndexPrev ≠ atBoundary.totalSec) := by
  rw [atBoundary_eq, afterSeconds_fast]
  refine ⟨rfl, ?_, ?_, ?_, ?_, ?_⟩ <;> decide

theorem reachable_atBoundary : Reachable atBoundary :=
  reachable_loops 0 7000 9999 _
    (reachable_pulses 3 _ (reachable_runBatches _ _ (reachable_initial 0)))

/-- Witness for C10: the evaluation that follows six one-second batches; it starts
with `totalSec == 6` and `cpmIndexPrev == 0`, so it advances the bin and puts its
3 pulses into the new bin. -/
theorem bin_advance_ordering_witness :
    Reachable atBoundary ∧ atBoundary.index = 10000 ∧
    (pollNoise 0 atBoundary).noiseCount = 0 ∧
    atBoundary._cpmHistory.length = kHistoryCount ∧ 0 ≤ atBoundary.cpmIndex ∧
    atBoundary.cpmIndex < kHistoryCount ∧
    (atBoundary.totalSec.tmod 6 = 0 ∧ atBoundary.cpmIndexPrev ≠ atBoundary.totalSec) ∧
    (loop 0 7000 atBoundary).cpmIndex = (atBoundary.cpmIndex + 1) % kHistoryCount ∧
    (loop 0 7000 atBoundary)._cpmHistory.getD (loop 0 7000 atBoundary).cpmIndex.toNat 0 =
      atBoundary.signCount :=
  have f := atBoundary_facts
  have h := (bin_advance_ordering atBoundary 0 7000 f.1 f.2.1 f.2.2.1 f.2.2.2.1
    f.2.2.2.2.1).1 f.2.2.2.2.2
  ⟨reachable_atBoundary, f.1, f.2.1, f.2.2.1, f.2.2.2.1, f.2.2.2.2.1, f.2.2.2.2.2,
    h.1, h.2.2.1⟩

/-- Counterexample to C10 as stated: after five clean one-second batches of one
pulse each (`totalSec == 5`, all 5 pulses in bin 0), the sixth such batch is
evaluated.  Its second-tick brings `totalSec` to 6, a boundary not yet used
(`cpmIndexPrev == 0`), but `cpmIndex` has not moved and the pulse of this batch is
in bin 0, the previous bin; bin 1 is still empty. -/
theorem bin_advance_counterexample :
    Reachable (afterSeconds 5) ∧
    (afterSeconds 5).totalSec = 5 ∧ (afterSeconds 5).cpmIndex = 0 ∧
    (afterSeconds 5)._cpmHistory.getD 0 0 = 5 ∧
    afterSeconds 6 = batch 1 6000 (afterSeconds 5) ∧
    (afterSeconds 6).totalSec = 6 ∧ (afterSeconds 6).cpmIndexPrev = 0 ∧
    (afterSeconds 6).cpmIndex = 0 ∧ (afterSeconds 6)._cpmHistory.getD 0 0 = 6 ∧
    (afterSeconds 6)._cpmHistory.getD 1 0 = 0 := by
  refine ⟨reachable_runBatches _ _ (reachable_initial 0), ?_, ?_, ?_,
    afterSeconds_succ_five, ?_⟩
  · rw [afterSeconds_fast]; decide
  · rw [afterSeconds_fast]; decide
  · rw [afterSeconds_fast]; decide
  · rw [afterSeconds_fast]; decide

/-! ## The batch driver -/

theorem loop_index (noise t : Int) (s : State) :
    (loop noise t s).index =
      (if s.index = 10000 then
        (if (pollNoise noise s).noiseCount = 0 then 1 else 10001)
      else s.index + 1) := by
  have h1 := (pollNoise_frame noise s).1
  by_cases hi : s.index = 10000
  · by_cases hc : (pollNoise noise s).noiseCount = 0
    · rw [loop_evaluating noise t s hi hc, if_pos hi, if_pos hc]
    · have h2 : (pollNoise noise s).index = 10000 := by rw [h1, hi]
      simp only [loop, evaluate, h2, if_true, if_neg hc, if_pos hi]
      norm_num
  · have h2 : (pollNoise noise s).index ≠ 10000 := by rw [h1]; exact hi
    simp only [loop, if_neg h2, if_neg hi, h1]

theorem loop_idle_frame (noise t : Int) (s : State) (hi : s.index ≠ 10000) :
    (loop noise t s)._cpm = s._cpm ∧ (loop noise t s)._cpmHistory = s._cpmHistory ∧
    (loop noise t s).cpmIndex = s.cpmIndex ∧ (loop noise t s).cpmIndexPrev = s.cpmIndexPrev ∧
    (loop noise t s).totalSec = s.totalSec ∧ (loop noise t s).totalHour = s.totalHour ∧
    (loop noise t s).cpmTimeMSec = s.cpmTimeMSec ∧ (loop noise t s).cpmTimeSec = s.cpmTimeSec ∧
    (loop noise t s)._prevTime = s._prevTime ∧ (loop noise t s).printed = s.printed ∧
    (loop noise t s).signCount = s.signCount := by
  obtain ⟨p1, p2, p3, p4, p5, p6, p7, p8, p9, p10, p11, p12⟩ := pollNoise_frame noise s
  have h2 : (pollNoise noise s).index ≠ 10000 := by rw [p1]; exact hi
  simp only [loop, if_neg h2]
  exact ⟨p4, p5, p6, p7, p8, p9, p10, p11, p3, p12, p2⟩

theorem loops_past (ins : List (Int × Int)) (s : State) (hi : 10000 < s.index) :
    (loops s ins).index = s.index + ins.length ∧ (loops s ins)._cpm = s._cpm ∧
    (loops s ins)._cpmHistory = s._cpmHistory ∧ (loops s ins).totalSec = s.totalSec ∧
    (loops s ins).totalHour = s.totalHour ∧ (loops s ins).cpmTimeMSec = s.cpmTimeMSec ∧
    (loops s ins).cpmTimeSec = s.cpmTimeSec ∧ (loops s ins).printed = s.printed := by
  induction ins generalizing s with
  | nil => simp [loops]
  | cons i ins ih =>
    have hne : s.index ≠ 10000 := by omega
    have h1 := loop_index i.1 i.2 s
    rw [if_neg hne] at h1
    obtain ⟨f1, f2, -, -, f5, f6, f7, f8, -, f10, -⟩ := loop_idle_frame i.1 i.2 s hne
    obtain ⟨g1, g2, g3, g4, g5, g6, g7, g8⟩ := ih (loop i.1 i.2 s) (by omega)
    simp only [loops, List.foldl_cons, List.length_cons] at g1 g2 g3 g4 g5 g6 g7 g8 ⊢
    refine ⟨?_, ?_, ?_, ?_, ?_, ?_, ?_, ?_⟩
    · rw [g1, h1]; push_cast; ring
    · rw [g2, f1]
    · rw [g3, f2]
    · rw [g4, f5]
    · rw [g5, f6]
    · rw [g6, f7]
    · rw [g7, f8]
    · rw [g8, f10]

/-- Claim C11 (batch driver cycle), evaluated at the failing input: a clean
evaluation leaves `index == 1`, so that the next evaluation is 10000 calls away,
but the noisy evaluation of the state `sevenPending` leaves `index == 10001`;
whatever `loop()` calls follow, `index` only grows, no status event is emitted and
the time accumulators stay as they are: no further batch is evaluated. -/
theorem noisy_batch_index_not_reset :
    sevenPending.index = 10000 ∧
    (loop 0 123 sevenPending).index = 1 ∧
    (loop 1 123 sevenPending).index = 10001 ∧
    (∀ ins : List (Int × Int),
      (loops (loop 1 123 sevenPending) ins).index = 10001 + ins.length ∧
      (loops (loop 1 123 sevenPending) ins).printed = 0 ∧
      (loops (loop 1 123 sevenPending) ins).cpmTimeMSec = 0 ∧
      (loops (loop 1 123 sevenPending) ins)._cpm = 0) := by
  have h1 : (loop 1 123 sevenPending).index = 10001 := by decide
  refine ⟨rfl, by decide, h1, ?_⟩
  intro ins
  obtain ⟨g1, g2, -, -, -, g6, -, g8⟩ := loops_past ins (loop 1 123 sevenPending) (by rw [h1]; decide)
  rw [g1, g2, g6, g8, h1]
  exact ⟨rfl, by decide, by decide, by decide⟩

/-- Claim C12 (status event): a `loop()` call invokes `printStatus()` exactly when it
evaluates a batch (`index == 10000`) and `noiseCount == 0` after its noise poll,
and then exactly once; a noisy evaluation and a non-evaluating call invoke it not
at all. -/
theorem status_event (s : State) (noise t : Int) :
    ((loop noise t s).printed = s.printed + 1 ↔
      (s.index = 10000 ∧ (pollNoise noise s).noiseCount = 0)) ∧
    ((loop noise t s).printed = s.printed ↔
      ¬ (s.index = 10000 ∧ (pollNoise noise s).noiseCount = 0)) := by
  obtain ⟨p1, -, -, -, -, -, -, -, -, -, -, p12⟩ := pollNoise_frame noise s
  by_cases hi : s.index = 10000
  · by_cases hc : (pollNoise noise s).noiseCount = 0
    · have h := (cleanBatch_driver t (pollNoise noise s)).2.1
      rw [loop_evaluating noise t s hi hc]
      simp only [h, p12]
      constructor
      · exact ⟨fun _ => ⟨hi, hc⟩, fun _ => trivial⟩
      · constructor
        · intro h1; omega
        · intro h1; exact absurd ⟨hi, hc⟩ h1
    · have h2 : (pollNoise noise s).index = 10000 := by rw [p1, hi]
      simp only [loop, evaluate, h2, if_true, if_neg hc, p12]
      constructor
      · constructor
        · intro h1; omega
        · intro h1; exact absurd h1.2 hc
      · exact ⟨fun _ h1 => hc h1.2, fun _ => trivial⟩
  · have h := (loop_idle_frame noise t s hi).2.2.2.2.2.2.2.2.2.1
    rw [h]
    constructor
    · constructor
      · intro h1; omega
      · intro h1; exact absurd h1.1 hi
    · exact ⟨fun _ h1 => hi h1.1, fun _ => rfl⟩

/-! ## The noise gate -/

theorem pollNoise_level (l : Int) (s : State) (hl : l = 0 ∨ l = 1)
    (hn : s.nON = 0 ∨ s.nON = 1) :
    (pollNoise l s).nON = l ∧
    (pollNoise l s).noiseCount = s.noiseCount + (if s.nON = 0 ∧ l = 1 then 1 else 0) := by
  rcases hl with hl | hl <;> rcases hn with hn | hn <;> simp [pollNoise, hl, hn]

theorem polls_spec (levels : List Int) (s : State) (hl : ∀ l ∈ levels, l = 0 ∨ l = 1)
    (hn : s.nON = 0 ∨ s.nON = 1) :
    (polls s levels).nON = lastLevel s.nON levels ∧
    (polls s levels).noiseCount = s.noiseCount + rises s.nON levels ∧
    ((polls s levels).nON = 0 ∨ (polls s levels).nON = 1) := by
  induction levels generalizing s with
  | nil => exact ⟨rfl, by simp [polls, rises], hn⟩
  | cons l ls ih =>
    have h1 := hl l (List.mem_cons_self l ls)
    obtain ⟨a1, a2⟩ := pollNoise_level l s h1 hn
    obtain ⟨b1, b2, b3⟩ := ih (pollNoise l s) (fun x hx => hl x (List.mem_cons_of_mem l hx))
      (by rw [a1]; exact h1)
    simp only [polls, List.foldl_cons] at b1 b2 b3 ⊢
    refine ⟨?_, ?_, b3⟩
    · rw [b1, a1]; rfl
    · rw [b2, a2, a1]
      simp only [rises]
      push_cast
      split_ifs <;> ring

theorem lastLevel_append (prev : Int) (pre : List Int) (l : Int) :
    lastLevel prev (pre ++ [l]) = l := by
  induction pre generalizing prev with
  | nil => rfl
  | cons a pre ih => exact ih a

theorem loops_idle (ins : List (Int × Int)) (s : State)
    (hi : s.index + ins.length ≤ 10000) :
    loops s ins = { polls s (ins.map Prod.fst) with index := s.index + ins.length } := by
  induction ins generalizing s with
  | nil => simp [loops, polls]
  | cons i ins ih =>
    have hlen : ((i :: ins).length : Int) = ins.length + 1 := by
      simp only [List.length_cons]; push_cast; ring
    rw [hlen] at hi ⊢
    have hne : (pollNoise i.1 s).index ≠ 10000 := by
      rw [(pollNoise_frame i.1 s).1]; omega
    have hne2 : s.index ≠ 10000 := by omega
    have h1 : loop i.1 i.2 s = { pollNoise i.1 s with index := s.index + 1 } := by
      simp only [loop, (pollNoise_frame i.1 s).1, if_neg hne2]
    have h2 := ih { pollNoise i.1 s with index := s.index + 1 } (by simp only []; omega)
    have h3 : ∀ (ls : List Int) (u : State) (k : Int),
        polls { u with index := k } ls = { polls u ls with index := k } := by
      intro ls
      induction ls with
      | nil => intro u k; rfl
      | cons a ls ihl =>
        intro u k
        have h4 : pollNoise a { u with index := k } = { pollNoise a u with index := k } := by
          unfold pollNoise
          split_ifs <;> rfl
        simp only [polls, List.foldl_cons] at ihl ⊢
        rw [h4, ihl]
    simp only [loops, List.foldl_cons, List.map_cons] at h2 ⊢
    rw [h1, h2, h3]
    simp only [polls, List.foldl_cons]
    congr 1
    ring

/-- Claim C13 (noise gate): for polled levels in {0,1}, starting from a flag `nON` in
{0,1}, after each poll of a batch `nON` equals the level just polled, and
`noiseCount` equals the count before plus the number of low-to-high transitions
in the levels polled, the level before the first poll being the `nON` carried
over; this is the count the evaluation tests after its own poll.  The evaluating
call resets `noiseCount` to 0 and leaves `nON` as polled. -/
theorem noise_gate (s : State) (ins : List (Int × Int)) (l t : Int)
    (hn : s.nON = 0 ∨ s.nON = 1) (hins : ∀ i ∈ ins, i.1 = 0 ∨ i.1 = 1)
    (hl : l = 0 ∨ l = 1) (hi : s.index + ins.length ≤ 10000) :
    (∀ pre i, ins = pre ++ [i] → (loops s ins).nON = i.1) ∧
    (loops s ins).noiseCount = s.noiseCount + rises s.nON (ins.map Prod.fst) ∧
    (pollNoise l (loops s ins)).nON = l ∧
    (pollNoise l (loops s ins)).noiseCount =
      s.noiseCount + rises s.nON (ins.map Prod.fst ++ [l]) ∧
    (s.index + ins.length = 10000 →
      (loops s ins).index = 10000 ∧
      (loop l t (loops s ins)).nON = l ∧
      (loop l t (loops s ins)).noiseCount = 0) := by
  have hlv : ∀ x ∈ ins.map Prod.fst, x = 0 ∨ x = 1 := by
    intro x hx
    obtain ⟨i, hi1, hi2⟩ := List.mem_map.mp hx
    rw [← hi2]; exact hins i hi1
  have hlv2 : ∀ x ∈ ins.map Prod.fst ++ [l], x = 0 ∨ x = 1 := by
    intro x hx
    rcases List.mem_append.mp hx with h | h
    · exact hlv x h
    · rw [List.mem_singleton.mp h]; exact hl
  obtain ⟨a1, a2, a3⟩ := polls_spec _ s hlv hn
  obtain ⟨b1, b2, -⟩ := polls_spec _ s hlv2 hn
  have e := loops_idle ins s hi
  have e1 : (loops s ins).nON = (polls s (ins.map Prod.fst)).nON := by rw [e]
  have e2 : (loops s ins).noiseCount = (polls s (ins.map Prod.fst)).noiseCount := by rw [e]
  have e4 : pollNoise l (loops s ins) =
      { polls s (ins.map Prod.fst ++ [l]) with index := s.index + ins.length } := by
    rw [e]
    simp only [polls, List.foldl_append, List.foldl_cons, List.foldl_nil]
    unfold pollNoise
    split_ifs <;> rfl
  have e5 : (pollNoise l (loops s ins)).nON = l := by
    rw [e4]
    simp only [b1, lastLevel_append]
  refine ⟨?_, ?_, e5, ?_, ?_⟩
  · intro pre i hpre
    rw [e1, a1, hpre, List.map_append, List.map_cons, List.map_nil, lastLevel_append]
  · rw [e2, a2]
  · rw [e4]; exact b2
  · intro heq
    have e3 : (loops s ins).index = 10000 := by rw [e]; exact heq
    have hloop : (loop l t (loops s ins)).nON = (pollNoise l (loops s ins)).nON ∧
        (loop l t (loops s ins)).noiseCount = 0 := by
      by_cases hc : (pollNoise l (loops s ins)).noiseCount = 0
      · rw [loop_evaluating l t _ e3 hc]
        exact ⟨(cleanBatch_driver t _).1, rfl⟩
      · have h2 : (pollNoise l (loops s ins)).index = 10000 := by
          rw [(pollNoise_frame l _).1, e3]
        simp only [loop, evaluate, h2, if_true, if_neg hc, and_self]
    exact ⟨e3, by rw [hloop.1, e5], hloop.2⟩

/-- Witness for C13: from `nearEvaluation` the line is low, then high for two polls;
the burst is counted once, in the batch in which it rose, and `nON` stays high
after the evaluation. -/
theorem noise_gate_witness :
    (nearEvaluation.nON = 0 ∨ nearEvaluation.nON = 1) ∧
    (∀ i ∈ burstInputs, i.1 = 0 ∨ i.1 = 1) ∧
    nearEvaluation.index + burstInputs.length = 10000 ∧
    (pollNoise 1 (loops nearEvaluation burstInputs)).noiseCount =
      nearEvaluation.noiseCount + rises nearEvaluation.nON (burstInputs.map Prod.fst ++ [1]) ∧
    rises nearEvaluation.nON (burstInputs.map Prod.fst ++ [1]) = 1 ∧
    (loop 1 0 (loops nearEvaluation burstInputs)).nON = 1 ∧
    (loop 1 0 (loops nearEvaluation burstInputs)).noiseCount = 0 :=
  have h := noise_gate nearEvaluation burstInputs 1 0 (by decide) (by decide) (by decide)
    (by decide)
  have h5 := h.2.2.2.2 (by decide)
  ⟨by decide, by decide, by decide, h.2.2.2.1, by decide, h5.2.1, h5.2.2⟩

/-! ## Conservation of time -/

theorem shiftHistory_idxInv (s : State) (h : IdxInv s) : IdxInv (shiftHistory s) := by
  unfold shiftHistory
  split_ifs
  · obtain ⟨hlen, h0, h1⟩ := h
    obtain ⟨f1, -, f3, -⟩ := shiftBody_fields s
    unfold IdxInv
    rw [f1, f3, List.length_set]
    simp only [kHistoryCount] at *
    push_cast at *
    refine ⟨hlen, ?_, ?_⟩ <;> split_ifs <;> omega
  · exact h

theorem loop_idxInv (noise t : Int) (s : State) (h : IdxInv s) : IdxInv (loop noise t s) := by
  obtain ⟨-, -, -, -, p5, p6, -⟩ := pollNoise_frame noise s
  have h1 : IdxInv (pollNoise noise s) := by
    unfold IdxInv at *
    rw [p5, p6]; exact h
  have h2 : IdxInv (cleanBatch t (pollNoise noise s)) := by
    obtain ⟨-, c2, c3, -⟩ := cleanBatch_count t (pollNoise noise s)
    have h3 := shiftHistory_idxInv _ h1
    unfold IdxInv at *
    rw [c2, c3, storeCount_hist, List.length_set]
    exact h3
  simp only [loop, evaluate]
  split_ifs
  · exact h2
  · exact h1
  · exact h1

theorem initial_idxInv (t : Int) : IdxInv (initial t) :=
  ⟨(initial_sumInv t).1, (initial_sumInv t).2.1, (initial_sumInv t).2.2.1⟩

theorem run_idxInv (evs : List Event) (s : State) (h : IdxInv s) : IdxInv (run s evs) := by
  induction evs generalizing s with
  | nil => exact h
  | cons e evs ih =>
    cases e with
    | pulse => exact ih _ h
    | loop noise t => exact ih _ (loop_idxInv noise t s h)

theorem evaluations_idxInv (bs : List Batch) (s : State) (h : IdxInv s) :
    IdxInv (evaluations s bs) := by
  induction bs generalizing s with
  | nil => exact h
  | cons b bs ih => exact ih _ (loop_idxInv _ _ _ h)

/-- Claim C19 (index safety): in every state reachable from the initial state, by
pulse interrupts and `loop()` calls or by any sequence of batch evaluations,
`0 <= cpmIndex < kHistoryCount` with `kHistoryCount = 200 > 0` the length of the
array; the position at which lines 108-118 of a following `loop()` call read and
write `_cpmHistory`, `cpmIndex` after the bin shift, is within the array as well. -/
theorem index_safety (millis : Int) (evs : List Event) (bs : List Batch) (noise : Int) :
    kHistoryCount = 200 ∧
    (0 ≤ (run (initial millis) evs).cpmIndex ∧
      (run (initial millis) evs).cpmIndex < kHistoryCount ∧
      (run (initial millis) evs)._cpmHistory.length = kHistoryCount ∧
      0 ≤ (shiftHistory (pollNoise noise (run (initial millis) evs))).cpmIndex ∧
      (shiftHistory (pollNoise noise (run (initial millis) evs))).cpmIndex < kHistoryCount ∧
      (shiftHistory (pollNoise noise (run (initial millis) evs)))._cpmHistory.length =
        kHistoryCount) ∧
    (0 ≤ (evaluations (initial millis) bs).cpmIndex ∧
      (evaluations (initial millis) bs).cpmIndex < kHistoryCount ∧
      (evaluations (initial millis) bs)._cpmHistory.length = kHistoryCount) := by
  have h1 := run_idxInv evs _ (initial_idxInv millis)
  have h2 := evaluations_idxInv bs _ (initial_idxInv millis)
  obtain ⟨-, -, -, -, p5, p6, -⟩ := pollNoise_frame noise (run (initial millis) evs)
  have h3 : IdxInv (pollNoise noise (run (initial millis) evs)) := by
    unfold IdxInv at *
    rw [p5, p6]; exact h1
  have h4 := shiftHistory_idxInv _ h3
  exact ⟨rfl, ⟨h1.2.1, h1.2.2, h1.1, h4.2.1, h4.2.2, h4.1⟩, ⟨h2.2.1, h2.2.2, h2.1⟩⟩

/-! ## Batch evaluations -/

theorem shiftHistory_driver (s : State) (i c a n : Int) :
    shiftHistory { s with index := i, signCount := c, nON := a, noiseCount := n } =
      { shiftHistory s with index := i, signCount := c, nON := a, noiseCount := n } := by
  simp only [shiftHistory, shiftBody, bin]
  split_ifs <;> rfl

theorem polled_shape (b : Batch) (s : State) :
    ∃ a n, polled b s =
      { s with index := 10000, signCount := b.signCount, nON := a, noiseCount := n } := by
  obtain ⟨a, n, h⟩ := pollNoise_shape b.noise
    { s with index := 10000, signCount := b.signCount, nON := b.nON, noiseCount := b.noiseCount }
  exact ⟨a, n, h⟩

theorem evaluation_noisy (b : Batch) (s : State) (h : (polled b s).noiseCount ≠ 0) :
    (evaluation b s)._cpm = s._cpm ∧ (evaluation b s)._cpmHistory = s._cpmHistory ∧
    (evaluation b s).cpmIndex = s.cpmIndex ∧ (evaluation b s).cpmIndexPrev = s.cpmIndexPrev ∧
    (evaluation b s).totalSec = s.totalSec ∧ (evaluation b s).totalHour = s.totalHour ∧
    (evaluation b s).cpmTimeMSec = s.cpmTimeMSec ∧ (evaluation b s).cpmTimeSec = s.cpmTimeSec ∧
    (evaluation b s)._prevTime = b.millis ∧ (evaluation b s).signCount = 0 ∧
    (evaluation b s).printed = s.printed := by
  obtain ⟨a, n, hp⟩ := polled_shape b s
  have h1 : (polled b s).index = 10000 := by rw [hp]
  unfold polled at h h1 hp
  simp only [evaluation, loop, evaluate, h1, if_true, if_neg h]
  rw [hp]
  exact ⟨rfl, rfl, rfl, rfl, rfl, rfl, rfl, rfl, trivial, trivial, rfl⟩

theorem evaluation_clean_count (b : Batch) (s : State) (h : (polled b s).noiseCount = 0) :
    (evaluation b s)._cpm = (shiftHistory s)._cpm + b.signCount ∧
    (evaluation b s)._cpmHistory =
      (shiftHistory s)._cpmHistory.set (shiftHistory s).cpmIndex.toNat
        ((shiftHistory s)._cpmHistory.getD (shiftHistory s).cpmIndex.toNat 0 + b.signCount) ∧
    (evaluation b s).cpmIndex = (shiftHistory s).cpmIndex ∧
    (evaluation b s).cpmIndexPrev = (shiftHistory s).cpmIndexPrev ∧
    (evaluation b s)._prevTime = b.millis ∧ (evaluation b s).signCount = 0 ∧
    (evaluation b s).printed = s.printed + 1 := by
  obtain ⟨a, n, hp⟩ := polled_shape b s
  unfold polled at h hp
  obtain ⟨c1, c2, c3, c4⟩ := cleanBatch_count b.millis (polled b s)
  have c5 := (cleanBatch_driver b.millis (polled b s)).2.1
  unfold polled at c1 c2 c3 c4 c5
  rw [hp] at c1 c2 c3 c4 c5
  rw [shiftHistory_driver] at c1 c2 c3 c4
  simp only [evaluation]
  rw [loop_evaluating _ _ _ rfl h, hp]
  refine ⟨?_, ?_, c3, c4, rfl, rfl, c5⟩
  · rw [c1]; simp only [storeCount]
  · rw [c2]; simp only [storeCount, bin]

theorem evaluation_clean_time (b : Batch) (s : State) (h : (polled b s).noiseCount = 0) :
    (evaluation b s).cpmTimeMSec =
      (if s.cpmTimeMSec + abs (b.millis - s._prevTime) ≥ 1000
        then s.cpmTimeMSec + abs (b.millis - s._prevTime) - 1000
        else s.cpmTimeMSec + abs (b.millis - s._prevTime)) ∧
    (evaluation b s).totalSec =
      (if s.cpmTimeMSec + abs (b.millis - s._prevTime) ≥ 1000
        then (if s.totalSec + 1 ≥ 3600 then s.totalSec + 1 - 3600 else s.totalSec + 1)
        else s.totalSec) ∧
    (evaluation b s).totalHour =
      (if s.cpmTimeMSec + abs (b.millis - s._prevTime) ≥ 1000
        then (if s.totalSec + 1 ≥ 3600 then s.totalHour + 1 else s.totalHour)
        else s.totalHour) :=
  loop_clean_time b.noise b.millis
    { s with index := 10000, signCount := b.signCount, nON := b.nON, noiseCount := b.noiseCount }
    rfl h

theorem shift_cases (s : State) (h : IdxInv s)
    (hc : s.totalSec.tmod 6 = 0 ∧ s.cpmIndexPrev ≠ s.totalSec) :
    (shiftHistory s).cpmIndex = (s.cpmIndex + 1) % 200 ∧
    (shiftHistory s).cpmIndexPrev = s.totalSec ∧
    (shiftHistory s)._cpmHistory = s._cpmHistory.set ((s.cpmIndex + 1) % 200).toNat 0 ∧
    (shiftHistory s)._cpm = s._cpm -
      (if 0 < s._cpmHistory.getD ((s.cpmIndex + 1) % 200).toNat 0
        then s._cpmHistory.getD ((s.cpmIndex + 1) % 200).toNat 0 else 0) := by
  obtain ⟨hlen, h0, h1⟩ := h
  simp only [kHistoryCount] at hlen h1
  push_cast at h1
  have hi : (if s.cpmIndex + 1 ≥ 200 then (0 : Int) else s.cpmIndex + 1) =
      (s.cpmIndex + 1) % 200 := by
    split_ifs <;> omega
  simp only [shiftHistory, if_pos hc, shiftBody, bin, kHistoryCount]
  push_cast
  by_cases hw : s.cpmIndex + 1 ≥ 200
  · have hz : (s.cpmIndex + 1) % 200 = 0 := by omega
    simp only [if_pos hw, hz]
    split_ifs <;> simp
  · have hz : (s.cpmIndex + 1) % 200 = s.cpmIndex + 1 := by omega
    simp only [if_neg hw, hz]
    split_ifs <;> simp

theorem pending_iff (a : Nat) (s : State) (h : AdvInv a s) :
    (s.totalSec.tmod 6 = 0 ∧ s.cpmIndexPrev ≠ s.totalSec) ↔ elapsedSec s = 6 * (a : Int) + 6 := by
  obtain ⟨-, h1, h2, h3, h4, h5, h6⟩ := h
  rw [Int.tmod_eq_emod h1 (by norm_num)]
  unfold elapsedSec at *
  constructor
  · intro ⟨h7, h8⟩
    omega
  · intro h7
    constructor <;> omega

theorem adv_step (a : Nat) (s : State) (b : Batch) (h : AdvInv a s) :
    ((evaluation b s).cpmIndex ≠ s.cpmIndex ↔
      ((polled b s).noiseCount = 0 ∧ elapsedSec s = 6 * (a : Int) + 6)) ∧
    AdvInv (a + (if (evaluation b s).cpmIndex ≠ s.cpmIndex then 1 else 0)) (evaluation b s) := by
  have hp := pending_iff a s h
  have hidx : IdxInv (evaluation b s) := loop_idxInv _ _ _ (by exact h.1)
  obtain ⟨hI, h1, h2, h3, h4, h5, h6⟩ := h
  obtain ⟨hlen, i0, i1⟩ := hI
  simp only [kHistoryCount] at hlen i1
  push_cast at i1
  by_cases hclean : (polled b s).noiseCount = 0
  · obtain ⟨c1, c3, c4⟩ := evaluation_clean_time b s hclean
    obtain ⟨-, -, d3, d4, -⟩ := evaluation_clean_count b s hclean
    by_cases hc : s.totalSec.tmod 6 = 0 ∧ s.cpmIndexPrev ≠ s.totalSec
    · obtain ⟨e1, e2, -, -⟩ := shift_cases s ⟨hlen, i0, i1⟩ hc
      have hn := hp.mp hc
      have hne : (evaluation b s).cpmIndex ≠ s.cpmIndex := by rw [d3, e1]; omega
      refine ⟨⟨fun _ => ⟨hclean, hn⟩, fun _ => hne⟩, ?_⟩
      rw [if_pos hne]
      refine ⟨hidx, ?_⟩
      unfold elapsedSec at *
      rw [c3, c4, d4, e2]
      push_cast
      split_ifs <;> omega
    · have e := shiftHistory_skip s hc
      rw [e] at d3 d4
      have hn : ¬ elapsedSec s = 6 * (a : Int) + 6 := fun hh => hc (hp.mpr hh)
      have hne : ¬ (evaluation b s).cpmIndex ≠ s.cpmIndex := by rw [d3]; exact fun hh => hh rfl
      refine ⟨⟨fun hh => absurd hh hne, fun hh => absurd hh.2 hn⟩, ?_⟩
      rw [if_neg hne]
      refine ⟨hidx, ?_⟩
      unfold elapsedSec at *
      rw [c3, c4, d4]
      push_cast
      split_ifs <;> omega
  · obtain ⟨-, -, n3, n4, n5, n6, -⟩ := evaluation_noisy b s hclean
    have hne : ¬ (evaluation b s).cpmIndex ≠ s.cpmIndex := by rw [n3]; exact fun hh => hh rfl
    refine ⟨⟨fun hh => absurd hh hne, fun hh => absurd hh.1 hclean⟩, ?_⟩
    rw [if_neg hne]
    refine ⟨hidx, ?_⟩
    unfold elapsedSec at *
    rw [n4, n5, n6]
    push_cast
    omega

theorem evaluations_append (s : State) (l1 l2 : List Batch) :
    evaluations s (l1 ++ l2) = evaluations (evaluations s l1) l2 := by
  simp only [evaluations, List.foldl_append]

theorem advances_append (l1 l2 : List Batch) (s : State) :
    advances s (l1 ++ l2) = advances s l1 + advances (evaluations s l1) l2 := by
  induction l1 generalizing s with
  | nil => simp [advances, evaluations]
  | cons b l1 ih =>
    have h := ih (evaluation b s)
    simp only [List.cons_append, advances, List.append_eq, evaluations, List.foldl_cons] at h ⊢
    rw [h]
    ring

theorem advInv_run (bs : List Batch) (a : Nat) (s : State) (h : AdvInv a s) :
    AdvInv (a + advances s bs) (evaluations s bs) := by
  induction bs generalizing a s with
  | nil => exact h
  | cons b bs ih =>
    have h1 := (adv_step a s b h).2
    have h2 := ih _ _ h1
    simp only [advances, evaluations, List.foldl_cons] at h2 ⊢
    rw [← add_assoc]
    exact h2

theorem initial_advInv (t : Int) : AdvInv 0 (initial t) := by
  refine ⟨initial_idxInv t, ?_⟩
  simp [elapsedSec, initial, setup, constructor]

theorem advance_effect (s : State) (b : Batch) (h : IdxInv s)
    (hclean : (polled b s).noiseCount = 0)
    (hc : s.totalSec.tmod 6 = 0 ∧ s.cpmIndexPrev ≠ s.totalSec) :
    (evaluation b s).cpmIndex = (s.cpmIndex + 1) % 200 ∧
    (evaluation b s)._cpmHistory.getD (evaluation b s).cpmIndex.toNat 0 = b.signCount ∧
    (evaluation b s)._cpm = s._cpm -
      (if 0 < s._cpmHistory.getD ((s.cpmIndex + 1) % 200).toNat 0
        then s._cpmHistory.getD ((s.cpmIndex + 1) % 200).toNat 0 else 0) + b.signCount ∧
    (∀ j, j ≠ ((s.cpmIndex + 1) % 200).toNat →
      (evaluation b s)._cpmHistory.getD j 0 = s._cpmHistory.getD j 0) := by
  obtain ⟨e1, -, e3, e4⟩ := shift_cases s h hc
  obtain ⟨d1, d2, d3, -⟩ := evaluation_clean_count b s hclean
  obtain ⟨hlen, i0, i1⟩ := h
  simp only [kHistoryCount] at hlen i1
  push_cast at i1
  have hl : ((s.cpmIndex + 1) % 200).toNat < s._cpmHistory.length := by omega
  rw [e1, e3] at d2
  rw [e1] at d3
  rw [e4] at d1
  rw [getD_set_eq _ _ _ hl] at d2
  refine ⟨d3, ?_, d1, ?_⟩
  · rw [d3, d2, getD_set_eq _ _ _ (by simp only [List.length_set]; exact hl)]
    ring
  · intro j hj
    rw [d2, getD_set_ne _ _ _ _ hj, getD_set_ne _ _ _ _ hj]

/-- Claim C17 (six-second eviction): let `s` be the state after any sequence `pre`
of batch evaluations from the initial state and `a` the number of bin advances
made so far.  Then `6a <= 3600 * totalHour + totalSec <= 6a + 6`, and the next
evaluation makes a bin advance exactly when it is clean and `6 * (a + 1)` seconds
have been counted: the k-th advance is made by the first clean evaluation after
the 6k-th second-tick, whatever the hour.  An advance moves `cpmIndex` by one
modulo `kHistoryCount`, takes the (positive) content of the bin at the new index
out of `_cpm` and zeroes that bin before the pulse count is folded in. -/
theorem six_second_eviction (millis : Int) (pre : List Batch) (b : Batch) (s : State) (a : Nat)
    (hs : s = evaluations (initial millis) pre) (ha : a = advances (initial millis) pre) :
    6 * (a : Int) ≤ 3600 * s.totalHour + s.totalSec ∧
    3600 * s.totalHour + s.totalSec ≤ 6 * (a : Int) + 6 ∧
    ((evaluation b s).cpmIndex ≠ s.cpmIndex ↔
      ((polled b s).noiseCount = 0 ∧ 3600 * s.totalHour + s.totalSec = 6 * ((a : Int) + 1))) ∧
    ((evaluation b s).cpmIndex ≠ s.cpmIndex →
      s.totalSec % 6 = 0 ∧
      (evaluation b s).cpmIndex = (s.cpmIndex + 1) % kHistoryCount ∧
      (evaluation b s)._cpmHistory.getD (evaluation b s).cpmIndex.toNat 0 = b.signCount ∧
      (evaluation b s)._cpm = s._cpm -
        (if 0 < s._cpmHistory.getD ((s.cpmIndex + 1) % kHistoryCount).toNat 0
          then s._cpmHistory.getD ((s.cpmIndex + 1) % kHistoryCount).toNat 0 else 0) +
        b.signCount) ∧
    advances (initial millis) (pre ++ [b]) =
      a + (if (evaluation b s).cpmIndex ≠ s.cpmIndex then 1 else 0) := by
  have hinv : AdvInv a s := by
    have h := advInv_run pre 0 (initial millis) (initial_advInv millis)
    rw [zero_add, ← ha, ← hs] at h
    exact h
  obtain ⟨s1, -⟩ := adv_step a s b hinv
  have hp := pending_iff a s hinv
  obtain ⟨hI, h1, h2, h3, h4, h5, h6⟩ := hinv
  unfold elapsedSec at s1 hp h4 h5
  refine ⟨h4, h5, ?_, ?_, ?_⟩
  · rw [s1]
    constructor
    · intro ⟨x, y⟩; exact ⟨x, by omega⟩
    · intro ⟨x, y⟩; exact ⟨x, by omega⟩
  · intro hadv
    obtain ⟨hclean, hn⟩ := s1.mp hadv
    have hc := hp.mpr hn
    obtain ⟨f1, f2, f3, -⟩ := advance_effect s b hI hclean hc
    simp only [kHistoryCount]
    push_cast
    exact ⟨by omega, f1, f2, f3⟩
  · rw [advances_append, ← ha, ← hs]
    simp only [advances, add_zero]

/-- Witness for C17: after the batches `sixSeconds` no advance has been made and 6
seconds have been counted; the evaluation of `seventhBatch` makes the first one. -/
theorem six_second_eviction_witness :
    advances (initial 0) sixSeconds = 0 ∧
    3600 * (evaluations (initial 0) sixSeconds).totalHour +
      (evaluations (initial 0) sixSeconds).totalSec = 6 ∧
    (polled seventhBatch (evaluations (initial 0) sixSeconds)).noiseCount = 0 ∧
    (evaluation seventhBatch (evaluations (initial 0) sixSeconds)).cpmIndex ≠
      (evaluations (initial 0) sixSeconds).cpmIndex ∧
    advances (initial 0) (sixSeconds ++ [seventhBatch]) = 1 :=
  have h := six_second_eviction 0 sixSeconds seventhBatch (evaluations (initial 0) sixSeconds) 0
    rfl (by decide)
  have h1 : (polled seventhBatch (evaluations (initial 0) sixSeconds)).noiseCount = 0 := by
    decide
  have h2 : 3600 * (evaluations (initial 0) sixSeconds).totalHour +
      (evaluations (initial 0) sixSeconds).totalSec = 6 := by decide
  have h3 := h.2.2.1.mpr ⟨h1, by rw [h2]; decide⟩
  ⟨by decide, h2, h1, h3, by rw [h.2.2.2.2, if_pos h3]⟩

/-! ## No loss before the window is full -/

theorem wrapInt_range (w : Nat) (hw : 1 ≤ w) (y k : Int) (h0 : -(2 ^ (w - 1)) ≤ y)
    (h1 : y < 2 ^ (w - 1)) : wrapInt w (y + k * 2 ^ w) = y := by
  have hM : (2 : Int) ^ w = 2 * 2 ^ (w - 1) := by
    obtain ⟨n, rfl⟩ : ∃ n, w = n + 1 := ⟨w - 1, by omega⟩
    simp only [Nat.add_sub_cancel]
    ring
  unfold wrapInt
  have h2 : y + k * 2 ^ w + 2 ^ (w - 1) = (y + 2 ^ (w - 1)) + k * 2 ^ w := by ring
  rw [h2, Int.add_mul_emod_self, Int.emod_eq_of_lt (by omega) (by omega)]
  ring

theorem addTime_total (t : Int) (s : State) :
    totalMillis (addTime t s) = totalMillis s + abs (t - s._prevTime) := by
  obtain ⟨c1, -, c3, c4⟩ := addTime_time t s
  unfold totalMillis
  rw [c1, c3, c4]
  split_ifs <;> omega

theorem wrapInt_shift (w : Nat) (x : Int) : ∃ k : Int, wrapInt w x = x + k * 2 ^ w := by
  refine ⟨-((x + 2 ^ (w - 1)) / 2 ^ w), ?_⟩
  unfold wrapInt
  have h := Int.emod_add_ediv (x + 2 ^ (w - 1)) (2 ^ w)
  linarith

theorem elapsedInt_small (w : Nat) (hw : 1 ≤ w) (p d k : Int) (hd : 0 ≤ d)
    (hlt : d < 2 ^ (w - 1)) : elapsedInt w (p + d + k * 2 ^ w) p = d := by
  have hH : (0 : Int) < 2 ^ (w - 1) := by positivity
  have e1 : p + d + k * 2 ^ w - p = d + k * 2 ^ w := by ring
  have e2 := wrapInt_range w hw d k (by omega) hlt
  have e3 := wrapInt_range w hw (-d) 0 (by omega) (by omega)
  rw [zero_mul, add_zero] at e3
  unfold elapsedInt
  rw [e1, e2]
  split_ifs with h
  · rfl
  · rw [e3]; omega

theorem addTimeW_small (w : Nat) (hw : 1 ≤ w) (s : State) (c d : Int) (hd : 0 ≤ d)
    (he : elapsedInt w c s._prevTime = d) (h0 : -(2 ^ (w - 1)) ≤ s.cpmTimeMSec + d)
    (h1 : s.cpmTimeMSec + d < 2 ^ (w - 1)) :
    addTimeW w c s = addTime (s._prevTime + d) s := by
  have e := wrapInt_range w hw (s.cpmTimeMSec + d) 0 h0 h1
  rw [zero_mul, add_zero] at e
  have ha : abs (s._prevTime + d - s._prevTime) = d := by
    unfold abs
    split_ifs <;> omega
  simp only [addTimeW, addTime, he, e, ha]

/-- Claim C14, amended (batch clock wraparound): the readings are held in a `w`-bit
two's-complement `int`, so the range of the clock is `M = 2^w`.  When the reading
has wrapped once, `currTime = _prevTime + d - M` with true elapsed time `d >= 0`,
and `d < M/2`, the duration `abs(currTime - _prevTime)` of line 121 is non-negative
and equals `d`, as it does for every reading `_prevTime + d` truncated to `w` bits;
lines 121-143 then act as on the unwrapped reading `_prevTime + d` and add `d` ms to
the accumulators, as long as `cpmTimeMSec + d` fits the `int`.  For `M/2 < d < M`
the duration is `M - d` instead.  Where the subtraction does not overflow the
duration is the absolute value of the exact difference. -/
theorem clock_wraparound (s : State) (d : Int) (w : Nat) (hd : 0 ≤ d) (hw : 1 ≤ w) :
    (d < 2 ^ (w - 1) →
      elapsedInt w (s._prevTime + d - 2 ^ w) s._prevTime = d ∧
      0 ≤ elapsedInt w (s._prevTime + d - 2 ^ w) s._prevTime ∧
      elapsedInt w (wrapInt w (s._prevTime + d)) s._prevTime = d) ∧
    (d < 2 ^ (w - 1) → -(2 ^ (w - 1)) ≤ s.cpmTimeMSec + d →
      s.cpmTimeMSec + d < 2 ^ (w - 1) →
      addTimeW w (s._prevTime + d - 2 ^ w) s = addTime (s._prevTime + d) s ∧
      totalMillis (addTimeW w (s._prevTime + d - 2 ^ w) s) = totalMillis s + d) ∧
    (2 ^ (w - 1) < d → d < 2 ^ w →
      elapsedInt w (s._prevTime + d - 2 ^ w) s._prevTime = 2 ^ w - d) ∧
    (∀ c : Int, -(2 ^ (w - 1)) < c - s._prevTime → c - s._prevTime < 2 ^ (w - 1) →
      elapsedInt w c s._prevTime = abs (c - s._prevTime)) := by
  have hM : (2 : Int) ^ w = 2 * 2 ^ (w - 1) := by
    obtain ⟨n, rfl⟩ : ∃ n, w = n + 1 := ⟨w - 1, by omega⟩
    simp only [Nat.add_sub_cancel]
    ring
  have hH : (0 : Int) < 2 ^ (w - 1) := by positivity
  have hone : d < 2 ^ (w - 1) → elapsedInt w (s._prevTime + d - 2 ^ w) s._prevTime = d := by
    intro hlt
    have e := elapsedInt_small w hw s._prevTime d (-1) hd hlt
    have e1 : s._prevTime + d + -1 * 2 ^ w = s._prevTime + d - 2 ^ w := by ring
    rw [e1] at e
    exact e
  refine ⟨?_, ?_, ?_, ?_⟩
  · intro hlt
    refine ⟨hone hlt, by rw [hone hlt]; exact hd, ?_⟩
    obtain ⟨k, hk⟩ := wrapInt_shift w (s._prevTime + d)
    rw [hk]
    exact elapsedInt_small w hw s._prevTime d k hd hlt
  · intro hlt h0 h1
    have e := addTimeW_small w hw s (s._prevTime + d - 2 ^ w) d hd (hone hlt) h0 h1
    refine ⟨e, ?_⟩
    rw [e, addTime_total]
    have ha : abs (s._prevTime + d - s._prevTime) = d := by
      unfold abs
      split_ifs <;> omega
    rw [ha]
  · intro hgt hlt
    have e1 : s._prevTime + d - 2 ^ w - s._prevTime = (d - 2 ^ w) + 0 * 2 ^ w := by ring
    have e2 := wrapInt_range w hw (d - 2 ^ w) 0 (by omega) (by omega)
    have e3 := wrapInt_range w hw (-(d - 2 ^ w)) 0 (by omega) (by omega)
    rw [zero_mul, add_zero] at e3
    unfold elapsedInt
    rw [e1, e2]
    split_ifs with h
    · omega
    · rw [e3]; ring
  · intro c hc0 hc1
    have e2 := wrapInt_range w hw (c - s._prevTime) 0 (by omega) hc1
    have e3 := wrapInt_range w hw (-(c - s._prevTime)) 0 (by omega) (by omega)
    rw [zero_mul, add_zero] at e2 e3
    unfold elapsedInt abs
    rw [e2]
    split_ifs with h
    · rfl
    · rw [e3]

/-- Witness for C14: `setup()` at reading 32700 of a 16-bit `int`, evaluation 170 ms
later at reading `32700 + 170 - 65536 = -32666`: the duration of line 121 is 170 ms
and the accumulators hold 170 ms more. -/
theorem clock_wraparound_witness :
    (0 : Int) ≤ 170 ∧ 1 ≤ 16 ∧ (170 : Int) < 2 ^ (16 - 1) ∧
    (initial 32700)._prevTime + 170 - 2 ^ 16 = -32666 ∧
    elapsedInt 16 ((initial 32700)._prevTime + 170 - 2 ^ 16) (initial 32700)._prevTime = 170 ∧
    totalMillis (addTimeW 16 ((initial 32700)._prevTime + 170 - 2 ^ 16) (initial 32700)) =
      totalMillis (initial 32700) + 170 :=
  have h := clock_wraparound (initial 32700) 170 16 (by decide) (by decide)
  ⟨by decide, by decide, by decide, by decide, (h.1 (by decide)).1,
    (h.2.1 (by decide) (by decide) (by decide)).2⟩

/-- Counterexample to C14 as stated: `setup()` at reading 30000 of a 16-bit `int`
(`M = 65536`), then a clean batch evaluated `d = 40000 < M` ms later, at reading
`30000 + 40000 - 65536 = 4464`.  The subtraction `4464 - 30000` does not overflow,
the duration of line 121 is 25536 ms and the evaluation adds 25536 ms, not 40000. -/
theorem clock_wraparound_counterexample :
    (40000 : Int) < 65536 ∧ wrappedBatch.millis = (initial 30000)._prevTime + 40000 - 65536 ∧
    (polled wrappedBatch (initial 30000)).noiseCount = 0 ∧
    elapsedInt 16 wrappedBatch.millis (initial 30000)._prevTime = 25536 ∧
    elapsedInt 16 wrappedBatch.millis (initial 30000)._prevTime ≠ 40000 ∧
    totalMillis (addTimeW 16 wrappedBatch.millis (initial 30000)) =
      totalMillis (initial 30000) + 25536 ∧
    totalMillis (evaluation wrappedBatch (initial 30000)) = totalMillis (initial 30000) + 25536 ∧
    totalMillis (evaluation wrappedBatch (initial 30000)) ≠ totalMillis (initial 30000) + 40000 := by
  decide

/-! ## Pulse interrupts during an evaluation -/

theorem loopI_atomic (noise t : Int) (s : State) : loopI 0 0 noise t s = loop noise t s := by
  simp only [loopI, evaluateI, cleanBatchI, storeCountI, loop, evaluate, cleanBatch, storeCount,
    Function.iterate_zero, id_eq]

theorem storeCountI_fields (k : Nat) (s : State) :
    (storeCountI k s)._cpm = (storeCount s)._cpm + k ∧
    (storeCountI k s)._cpmHistory = (storeCount s)._cpmHistory ∧
    (storeCountI k s).signCount = s.signCount + k ∧
    (storeCountI k s).cpmIndex = s.cpmIndex ∧
    (storeCountI k s).cpmIndexPrev = s.cpmIndexPrev := by
  simp only [storeCountI, storeCount, pulses_iterate]
  refine ⟨by ring, ?_, ?_, ?_, ?_⟩ <;> trivial

theorem cleanBatchI_fields (k : Nat) (t : Int) (s : State) :
    (cleanBatchI k t s)._cpm = (cleanBatch t s)._cpm + k ∧
    (cleanBatchI k t s)._cpmHistory = (cleanBatch t s)._cpmHistory ∧
    (cleanBatchI k t s).signCount = s.signCount + k := by
  obtain ⟨a1, a2, a3, -⟩ := storeCountI_fields k (shiftHistory s)
  obtain ⟨b1, b2, -, -, b5, -⟩ := addTime_frame t (storeCountI k (shiftHistory s))
  obtain ⟨c1, c2, -⟩ := addTime_frame t (storeCount (shiftHistory s))
  obtain ⟨-, -, -, -, -, d6, -⟩ := shiftHistory_time s
  simp only [cleanBatchI, cleanBatch, printStatus]
  exact ⟨by rw [b1, a1, c1], by rw [b2, a2, c2], by rw [b5, a3, d6]⟩

/-- Claim C15, as the code has it (pulse atomicity): in a clean batch evaluation the
amount added to `_cpm` is the number of pulses pending at the read of line 118:
those counted before the evaluation and the `k` that fire between the reads of
lines 116 and 118, which are added to `_cpm` but not to the bin.  The `m` pulses
that fire after the read of line 118 and before the reset of line 152 are lost:
`signCount` is 0 afterwards.  With no interrupt during the evaluation the call is
the atomic `loop()`, which loses nothing. -/
theorem pulse_accounting (s : State) (k m : Nat) (noise t : Int) (hidx : s.index = 10000)
    (hclean : (pollNoise noise s).noiseCount = 0) :
    (loopI k m noise t s)._cpm =
      (shiftHistory (pollNoise noise s))._cpm + (s.signCount + k) ∧
    (loopI k m noise t s)._cpm = (loop noise t s)._cpm + k ∧
    (loopI k m noise t s)._cpmHistory = (loop noise t s)._cpmHistory ∧
    (loopI k m noise t s).signCount = 0 ∧
    loopI 0 0 noise t s = loop noise t s := by
  obtain ⟨p1, p2, -⟩ := pollNoise_frame noise s
  have h1 : (pollNoise noise s).index = 10000 := by rw [p1, hidx]
  obtain ⟨a1, a2, -⟩ := cleanBatchI_fields k t (pollNoise noise s)
  obtain ⟨b1, -⟩ := cleanBatch_count t (pollNoise noise s)
  have e : loop noise t s = _ := loop_evaluating noise t s hidx hclean
  have hI : (loopI k m noise t s)._cpm = (cleanBatchI k t (pollNoise noise s))._cpm ∧
      (loopI k m noise t s)._cpmHistory = (cleanBatchI k t (pollNoise noise s))._cpmHistory ∧
      (loopI k m noise t s).signCount = 0 := by
    simp only [loopI, evaluateI, h1, if_true, hclean, pulses_iterate, and_self]
  refine ⟨?_, ?_, ?_, hI.2.2, loopI_atomic noise t s⟩
  · have hs : (shiftHistory (pollNoise noise s)).signCount = s.signCount := by
      rw [(shiftHistory_time (pollNoise noise s)).2.2.2.2.2.1, p2]
    rw [hI.1, a1, b1]
    simp only [storeCount]
    rw [hs]; ring
  · rw [hI.1, a1, e]
  · rw [hI.2.1, a2, e]

set_option maxRecDepth 20000 in
theorem sevenPending_interleaved :
    (loopI 1 2 0 123 sevenPending)._cpm = 8 ∧
    (loopI 1 2 0 123 sevenPending)._cpmHistory.sum = 7 ∧
    (loopI 0 1 0 123 sevenPending)._cpm = 7 ∧
    (loopI 0 1 0 123 sevenPending).signCount = 0 := by
  refine ⟨?_, ?_, ?_, ?_⟩ <;> decide

/-- Witness for C15: the evaluation of `sevenPending` (7 pulses pending) with one
interrupt between lines 116 and 118 and two after line 118: 8 pulses reach
`_cpm`, 7 reach the bin and `signCount` is 0 afterwards. -/
theorem pulse_accounting_witness :
    sevenPending.index = 10000 ∧ (pollNoise 0 sevenPending).noiseCount = 0 ∧
    (loopI 1 2 0 123 sevenPending)._cpm = (loop 0 123 sevenPending)._cpm + 1 ∧
    (loopI 1 2 0 123 sevenPending)._cpm = 8 ∧
    (loopI 1 2 0 123 sevenPending)._cpmHistory.sum = 7 ∧
    (loopI 1 2 0 123 sevenPending).signCount = 0 :=
  have h := pulse_accounting sevenPending 1 2 0 123 rfl (by decide)
  ⟨rfl, by decide, h.2.1, sevenPending_interleaved.1, sevenPending_interleaved.2.1, h.2.2.2.1⟩

/-- Counterexample to C15 as stated: 7 pulses are pending when `sevenPending` is
evaluated (a clean batch) and one more interrupt fires after the read of line 118
and before the reset of line 152.  Of the 8 pulses fired 7 are added to `_cpm`,
and `signCount` is 0 afterwards: the eighth pulse is lost. -/
theorem pulse_atomicity_counterexample :
    sevenPending.index = 10000 ∧ (pollNoise 0 sevenPending).noiseCount = 0 ∧
    sevenPending._cpm = 0 ∧ sevenPending.signCount + 1 = 8 ∧
    (loopI 0 1 0 123 sevenPending)._cpm = 7 ∧
    (loopI 0 1 0 123 sevenPending).signCount = 0 :=
  ⟨rfl, by decide, rfl, by decide, sevenPending_interleaved.2.2.1,
    sevenPending_interleaved.2.2.2⟩

/-! ## The noise flag in reachable states -/

theorem pollNoise_flag (noise : Int) (s : State) (h : s.nON = 0 ∨ s.nON = 1) :
    (pollNoise noise s).nON = 0 ∨ (pollNoise noise s).nON = 1 := by
  unfold pollNoise
  split_ifs
  · exact Or.inr rfl
  · exact Or.inl rfl
  · exact h

theorem loop_flag (noise t : Int) (s : State) (h : s.nON = 0 ∨ s.nON = 1) :
    (loop noise t s).nON = 0 ∨ (loop noise t s).nON = 1 := by
  have h1 := pollNoise_flag noise s h
  have h2 : (loop noise t s).nON = (pollNoise noise s).nON := by
    simp only [loop, evaluate]
    split_ifs
    · exact (cleanBatch_driver t _).1
    · rfl
    · rfl
  rw [h2]
  exact h1

theorem reachable_flag (s : State) (h : Reachable s) : s.nON = 0 ∨ s.nON = 1 := by
  obtain ⟨m, evs, rfl⟩ := h
  have key : ∀ (evs : List Event) (u : State), (u.nON = 0 ∨ u.nON = 1) →
      ((run u evs).nON = 0 ∨ (run u evs).nON = 1) := by
    intro evs
    induction evs with
    | nil => intro u hu; exact hu
    | cons e evs ih =>
      intro u hu
      cases e with
      | pulse => exact ih _ hu
      | loop noise t => exact ih _ (loop_flag noise t u hu)
  exact key evs _ (Or.inl rfl)

/-! ## The sum invariant with interrupts inside an evaluation -/

theorem cleanBatchI_index (k : Nat) (t : Int) (s : State) :
    (cleanBatchI k t s).cpmIndex = (cleanBatch t s).cpmIndex := by
  obtain ⟨-, -, -, a4, -⟩ := storeCountI_fields k (shiftHistory s)
  obtain ⟨-, -, b3, -⟩ := addTime_frame t (storeCountI k (shiftHistory s))
  obtain ⟨-, -, c3, -⟩ := addTime_frame t (storeCount (shiftHistory s))
  obtain ⟨-, -, -, -, -, -, -, -, -, -, d11, -⟩ := storeCount_time (shiftHistory s)
  simp only [cleanBatchI, cleanBatch, printStatus]
  rw [b3, a4, c3, d11]

theorem loopI_fields (k m : Nat) (noise t : Int) (s : State) :
    (loopI k m noise t s)._cpm = (loop noise t s)._cpm +
      (if s.index = 10000 ∧ (pollNoise noise s).noiseCount = 0 then (k : Int) else 0) ∧
    (loopI k m noise t s)._cpmHistory = (loop noise t s)._cpmHistory ∧
    (loopI k m noise t s).cpmIndex = (loop noise t s).cpmIndex := by
  obtain ⟨p1, -⟩ := pollNoise_frame noise s
  by_cases hi : s.index = 10000
  · have h1 : (pollNoise noise s).index = 10000 := by rw [p1, hi]
    by_cases hc : (pollNoise noise s).noiseCount = 0
    · obtain ⟨a1, a2, -⟩ := cleanBatchI_fields k t (pollNoise noise s)
      have a3 := cleanBatchI_index k t (pollNoise noise s)
      rw [if_pos ⟨hi, hc⟩, loop_evaluating noise t s hi hc]
      simp only [loopI, evaluateI, h1, if_true, hc, pulses_iterate]
      exact ⟨a1, a2, a3⟩
    · have hn : ¬ (s.index = 10000 ∧ (pollNoise noise s).noiseCount = 0) := fun h => hc h.2
      rw [if_neg hn]
      simp only [loopI, evaluateI, loop, evaluate, h1, if_true, if_neg hc, pulses_iterate,
        add_zero, and_self]
  · have h1 : (pollNoise noise s).index ≠ 10000 := by rw [p1]; exact hi
    have hn : ¬ (s.index = 10000 ∧ (pollNoise noise s).noiseCount = 0) := fun h => hi h.1
    rw [if_neg hn]
    simp only [loopI, loop, if_neg h1, add_zero, and_self]

theorem shiftHistory_skewInv (k : Nat) (s : State) (h : SkewInv k s) :
    SkewInv k (shiftHistory s) := by
  obtain ⟨hI, hnn, hsum⟩ := h
  by_cases hc : s.totalSec.tmod 6 = 0 ∧ s.cpmIndexPrev ≠ s.totalSec
  · obtain ⟨-, -, e3, e4⟩ := shift_cases s hI hc
    have hidx := shiftHistory_idxInv s hI
    obtain ⟨hlen, i0, i1⟩ := hI
    simp only [kHistoryCount] at hlen i1
    push_cast at i1
    have hl : ((s.cpmIndex + 1) % 200).toNat < s._cpmHistory.length := by omega
    have hold := getD_nonneg s._cpmHistory ((s.cpmIndex + 1) % 200).toNat hnn
    refine ⟨hidx, ?_, ?_⟩
    · rw [e3]; exact set_nonneg _ _ _ hnn (le_refl 0)
    · rw [e4, e3, sum_set_int _ _ _ hl, hsum]
      split_ifs <;> omega
  · rw [shiftHistory_skip s hc]
    exact ⟨hI, hnn, hsum⟩

theorem evaluation_skewInv (k : Nat) (b : Batch) (s : State) (h : SkewInv k s)
    (hb : 0 ≤ b.signCount) : SkewInv k (evaluation b s) := by
  have hidx : IdxInv (evaluation b s) := loop_idxInv _ _ _ (by exact h.1)
  by_cases hclean : (polled b s).noiseCount = 0
  · obtain ⟨d1, d2, -⟩ := evaluation_clean_count b s hclean
    obtain ⟨⟨hlen, i0, i1⟩, hnn, hsum⟩ := shiftHistory_skewInv k s h
    simp only [kHistoryCount] at hlen i1
    push_cast at i1
    have hl : (shiftHistory s).cpmIndex.toNat < (shiftHistory s)._cpmHistory.length := by omega
    have hg := getD_nonneg (shiftHistory s)._cpmHistory (shiftHistory s).cpmIndex.toNat hnn
    refine ⟨hidx, ?_, ?_⟩
    · rw [d2]; exact set_nonneg _ _ _ hnn (by omega)
    · rw [d1, d2, sum_set_int _ _ _ hl, hsum]; ring
  · obtain ⟨n1, n2, -⟩ := evaluation_noisy b s hclean
    obtain ⟨-, hnn, hsum⟩ := h
    exact ⟨hidx, by rw [n2]; exact hnn, by rw [n1, n2]; exact hsum⟩

theorem evaluationI_skewInv (k : Nat) (x : BatchI) (s : State) (h : SkewInv k s)
    (hb : 0 ≤ x.batch.signCount) :
    SkewInv (k + (if (polled x.batch s).noiseCount = 0 then x.between else 0))
      (evaluationI x s) := by
  obtain ⟨⟨hlen, i0, i1⟩, hnn, hsum⟩ := evaluation_skewInv k x.batch s h hb
  obtain ⟨f1, f2, f3⟩ := loopI_fields x.between x.after x.batch.noise x.batch.millis
    { s with index := 10000, signCount := x.batch.signCount, nON := x.batch.nON,
             noiseCount := x.batch.noiseCount }
  simp only [evaluation] at hlen i0 i1 hnn hsum
  simp only [true_and] at f1
  refine ⟨⟨?_, ?_, ?_⟩, ?_, ?_⟩
  · simp only [evaluationI]; rw [f2]; exact hlen
  · simp only [evaluationI]; rw [f3]; exact i0
  · simp only [evaluationI]; rw [f3]; exact i1
  · simp only [evaluationI]; rw [f2]; exact hnn
  · simp only [evaluationI, polled]
    rw [f1, f2, hsum]
    push_cast
    split_ifs <;> ring

theorem evaluationsI_skewInv (xs : List BatchI) (k : Nat) (s : State) (h : SkewInv k s)
    (hb : ∀ x ∈ xs, 0 ≤ x.batch.signCount) :
    SkewInv (k + skew s xs) (evaluationsI s xs) := by
  induction xs generalizing k s with
  | nil => exact h
  | cons x xs ih =>
    have h1 := evaluationI_skewInv k x s h (hb x (List.mem_cons_self x xs))
    have h2 := ih _ _ h1 (fun y hy => hb y (List.mem_cons_of_mem x hy))
    simp only [skew, evaluationsI, List.foldl_cons] at h2 ⊢
    rw [← add_assoc]
    exact h2

theorem skew_zero (xs : List BatchI) (s : State) (h : ∀ x ∈ xs, x.between = 0) :
    skew s xs = 0 := by
  induction xs generalizing s with
  | nil => rfl
  | cons x xs ih =>
    simp only [skew, h x (List.mem_cons_self x xs), ite_self, zero_add]
    exact ih _ (fun y hy => h y (List.mem_cons_of_mem x hy))

theorem initial_skewInv (t : Int) : SkewInv 0 (initial t) := by
  obtain ⟨-, -, -, h4, h5, -⟩ := initial_sumInv t
  refine ⟨initial_idxInv t, h4, ?_⟩
  rw [h5]; simp [histSum]

set_option maxRecDepth 20000 in
theorem oneInterleaved_values :
    (evaluationsI (initial 0) oneInterleaved)._cpm = 8 ∧
    (evaluationsI (initial 0) oneInterleaved)._cpmHistory.sum = 7 ∧
    (shiftHistory (evaluationsI (initial 0) oneInterleaved))._cpm = 8 ∧
    (shiftHistory (evaluationsI (initial 0) oneInterleaved))._cpmHistory.sum = 7 := by
  refine ⟨?_, ?_, ?_, ?_⟩ <;> decide

set_option maxRecDepth 20000 in
theorem threeBatchesI_values :
    skew (initial 0) threeBatchesI = 2 ∧
    (evaluationsI (initial 0) threeBatchesI)._cpm = 9 ∧
    (evaluationsI (initial 0) threeBatchesI)._cpmHistory.sum = 7 := by
  refine ⟨?_, ?_, ?_⟩ <;> decide

/-- Claim C2 (sum invariant, amended): starting from the initial state, after any
sequence of batch evaluations in which every pending pulse count `signCount` is
non-negative and in which pulse interrupts may fire at any point of the evaluating
`loop()` call, the array keeps its `kHistoryCount` entries and `_cpm` equals the sum
of all entries of `_cpmHistory` plus the number of interrupts that fired between the
reads of `signCount` at lines 116 and 118 of a clean evaluation; the same holds
right after a bin is evicted and zeroed.  When no interrupt fires between those two
reads, `_cpm` equals the sum of the entries exactly, also right after an eviction. -/
theorem sum_invariant_interleaved (millis : Int) (xs : List BatchI)
    (hb : ∀ x ∈ xs, 0 ≤ x.batch.signCount) :
    (evaluationsI (initial millis) xs)._cpmHistory.length = kHistoryCount ∧
    (evaluationsI (initial millis) xs)._cpm =
      (evaluationsI (initial millis) xs)._cpmHistory.sum + skew (initial millis) xs ∧
    (shiftHistory (evaluationsI (initial millis) xs))._cpm =
      (shiftHistory (evaluationsI (initial millis) xs))._cpmHistory.sum +
        skew (initial millis) xs ∧
    ((∀ x ∈ xs, x.between = 0) →
      (evaluationsI (initial millis) xs)._cpm =
        (evaluationsI (initial millis) xs)._cpmHistory.sum ∧
      (shiftHistory (evaluationsI (initial millis) xs))._cpm =
        (shiftHistory (evaluationsI (initial millis) xs))._cpmHistory.sum) := by
  have h := evaluationsI_skewInv xs 0 (initial millis) (initial_skewInv millis) hb
  rw [zero_add] at h
  have h2 := shiftHistory_skewInv _ _ h
  refine ⟨h.1.1, h.2.2, h2.2.2, fun hz => ?_⟩
  have e := skew_zero xs (initial millis) hz
  rw [e] at h h2
  exact ⟨by simpa using h.2.2, by simpa using h2.2.2⟩

/-- Witness for C2: three batches with 3, 2 and 4 pulses pending, the second one
noisy, and 2 interrupts between lines 116 and 118 of the third evaluation: `_cpm`
is 9 and the bins sum to 7. -/
theorem sum_invariant_interleaved_witness :
    (∀ x ∈ threeBatchesI, 0 ≤ x.batch.signCount) ∧
    skew (initial 0) threeBatchesI = 2 ∧
    (evaluationsI (initial 0) threeBatchesI)._cpm =
      (evaluationsI (initial 0) threeBatchesI)._cpmHistory.sum +
        skew (initial 0) threeBatchesI ∧
    (evaluationsI (initial 0) threeBatchesI)._cpm = 9 ∧
    (evaluationsI (initial 0) threeBatchesI)._cpmHistory.sum = 7 :=
  ⟨by decide, threeBatchesI_values.1,
    (sum_invariant_interleaved 0 threeBatchesI (by decide)).2.1,
    threeBatchesI_values.2.1, threeBatchesI_values.2.2⟩

/-- Counterexample to C2 as stated: from the initial state, one clean batch evaluation
with 7 pulses pending (a non-negative count) during which one more pulse interrupt
fires between the reads of `signCount` at lines 116 and 118.  Afterwards `_cpm` is 8
while the entries of `_cpmHistory` sum to 7, and the difference remains after the
shift that evicts a bin. -/
theorem sum_invariant_counterexample :
    (∀ x ∈ oneInterleaved, 0 ≤ x.batch.signCount) ∧
    (evaluationsI (initial 0) oneInterleaved)._cpm = 8 ∧
    (evaluationsI (initial 0) oneInterleaved)._cpmHistory.sum = 7 ∧
    (evaluationsI (initial 0) oneInterleaved)._cpm ≠
      (evaluationsI (initial 0) oneInterleaved)._cpmHistory.sum ∧
    (shiftHistory (evaluationsI (initial 0) oneInterleaved))._cpm ≠
      (shiftHistory (evaluationsI (initial 0) oneInterleaved))._cpmHistory.sum := by
  obtain ⟨h1, h2, h3, h4⟩ := oneInterleaved_values
  refine ⟨by decide, h1, h2, ?_, ?_⟩
  · rw [h1, h2]; decide
  · rw [h3, h4]; decide

end RadiationWatch
